import Mathlib

/-
Verification of the klippa rectangle-clipping library against its
specification.  The Rust sources (src/geom.rs, src/rect.rs, src/lib.rs)
are shallowly embedded below.  Coordinates are modelled by exact
rationals; the float-specific behaviour that is reachable in the source
(the sign of a zero produced by subtraction, `f64::min`/`f64::max`
ignoring NaN, division of a nonzero value by zero giving an infinity and
0/0 giving NaN) is modelled explicitly by the `FSlope` type so that the
branch structure of `LineExt::intersection` is preserved exactly.
-/

set_option maxHeartbeats 1000000

-- Rat arithmetic is @[irreducible] in Batteries, which blocks `decide` on
-- concrete rational computations; restore kernel-visible reducibility for
-- this file's concrete evaluations.
set_option allowUnsafeReducibility true
attribute [local semireducible] Rat.add Rat.mul Rat.sub Rat.inv Rat.div Rat.ofScientific

namespace Klippa

/-- A 2-D coordinate (geo_types::Coord with exact rational scalars). -/
structure Coord where
  x : ℚ
  y : ℚ
deriving DecidableEq, Repr

instance : Inhabited Coord := ⟨⟨0, 0⟩⟩

/-- A directed segment (geo_types::Line).  The Rust field `end` is a Lean
keyword, so it is called `stop` here. -/
structure LineQ where
  start : Coord
  stop : Coord
deriving DecidableEq, Repr

instance : Inhabited LineQ := ⟨⟨⟨0, 0⟩, ⟨0, 0⟩⟩⟩

/-- CoordExt::yx - swaps the two axes of a coordinate. -/
def Coord.yx (c : Coord) : Coord := ⟨c.y, c.x⟩

/-- CoordExt::manhattan_dist. -/
def manhattanDist (a b : Coord) : ℚ := |a.x - b.x| + |a.y - b.y|

/-- LineExt::swap_axes. -/
def LineQ.swapAxes (l : LineQ) : LineQ := ⟨l.start.yx, l.stop.yx⟩

/-- Line::dx of geo_types. -/
def LineQ.dx (l : LineQ) : ℚ := l.stop.x - l.start.x

/-- Line::dy of geo_types. -/
def LineQ.dy (l : LineQ) : ℚ := l.stop.y - l.start.y

/-- The point of a segment at parameter t (t = 0 is the start, t = 1 the
stop).  Used to state and prove facts about the intersection predicate;
not part of the Rust code. -/
def pointAt (b : LineQ) (t : ℚ) : Coord :=
  ⟨b.start.x + t * b.dx, b.start.y + t * b.dy⟩

/-- The value of an f64 slope: finite, one of the infinities, or NaN.
`Line::slope()` is dy/dx on floats; dx here is always produced by a
subtraction, so a zero dx is +0.0 and dy/dx is +inf, -inf or NaN. -/
inductive FSlope where
  | nan : FSlope
  | ninf : FSlope
  | pinf : FSlope
  | fin : ℚ → FSlope
deriving DecidableEq, Repr

/-- Float division dy/dx as used for the chord slopes (dx is +0.0 when zero). -/
def fdiv (dy dx : ℚ) : FSlope :=
  if dx = 0 then
    if 0 < dy then .pinf else if dy < 0 then .ninf else .nan
  else .fin (dy / dx)

/-- f64::min - NaN is ignored when the other argument is not NaN. -/
def fmin : FSlope → FSlope → FSlope
  | .nan, b => b
  | a, .nan => a
  | .ninf, _ => .ninf
  | _, .ninf => .ninf
  | .pinf, b => b
  | a, .pinf => a
  | .fin p, .fin q => .fin (min p q)

/-- f64::max - NaN is ignored when the other argument is not NaN. -/
def fmax : FSlope → FSlope → FSlope
  | .nan, b => b
  | a, .nan => a
  | .pinf, _ => .pinf
  | _, .pinf => .pinf
  | .ninf, b => b
  | a, .ninf => a
  | .fin p, .fin q => .fin (max p q)

/-- IEEE strict less-than: every comparison involving NaN is false. -/
def flt : FSlope → FSlope → Bool
  | .nan, _ => false
  | _, .nan => false
  | .ninf, .ninf => false
  | .ninf, _ => true
  | _, .ninf => false
  | .pinf, _ => false
  | .fin _, .pinf => true
  | .fin p, .fin q => decide (p < q)

/-- LineExt::intersection for a vertical A (a.start.x == a.end.x).
dx_c is the x-distance from B's start to A, dx_b is B's own x-extent;
`is_sign_positive` on a subtraction result is `0 ≤ _` because a zero
difference of floats is +0.0. -/
def intersectionV (a b : LineQ) : Option Coord :=
  let dx_c := a.start.x - b.start.x
  let dx_b := b.dx
  if ¬((0 ≤ dx_c) ↔ (0 ≤ dx_b)) ∨ |dx_b| ≤ |dx_c| then none
  else
    let slope_b := b.dy / dx_b
    let slope_c := fdiv (a.start.y - b.start.y) (a.start.x - b.start.x)
    let slope_d := fdiv (a.stop.y - b.start.y) (a.stop.x - b.start.x)
    if flt (.fin slope_b) (fmin slope_c slope_d) ∨
       flt (fmax slope_c slope_d) (.fin slope_b) then none
    else some ⟨b.start.x + dx_c, b.start.y + dx_c * slope_b⟩

/-- LineExt::intersection.  A must be axis-aligned (the Rust code panics
otherwise; the panic branch is modelled as `none` and every theorem that
touches it carries an orthogonality hypothesis).  A horizontal A is
handled by swapping both segments' axes and mapping `yx` back. -/
def intersection (a b : LineQ) : Option Coord :=
  if a.start.x = a.stop.x then intersectionV a b
  else if a.start.y = a.stop.y then
    (intersectionV a.swapAxes b.swapAxes).map Coord.yx
  else none

/-- The clip rectangle (rect.rs Rect).  The Rust struct also caches the four
boundary segments; they are derived by `Rect.linesL` below, which is what
`Rect::new` always stores. -/
structure Rect where
  x0 : ℚ
  y0 : ℚ
  x1 : ℚ
  y1 : ℚ
deriving DecidableEq, Repr

/-- Boundary segment 0 (bottom, left-to-right). -/
def Rect.line0 (r : Rect) : LineQ := ⟨⟨r.x0, r.y0⟩, ⟨r.x1, r.y0⟩⟩

/-- Boundary segment 1 (right, bottom-to-top). -/
def Rect.line1 (r : Rect) : LineQ := ⟨⟨r.x1, r.y0⟩, ⟨r.x1, r.y1⟩⟩

/-- Boundary segment 2 (top, right-to-left). -/
def Rect.line2 (r : Rect) : LineQ := ⟨⟨r.x1, r.y1⟩, ⟨r.x0, r.y1⟩⟩

/-- Boundary segment 3 (left, top-to-bottom). -/
def Rect.line3 (r : Rect) : LineQ := ⟨⟨r.x0, r.y1⟩, ⟨r.x0, r.y0⟩⟩

/-- The rect's four boundary segments in traversal order (Rect::new). -/
def Rect.linesL (r : Rect) : List LineQ := [r.line0, r.line1, r.line2, r.line3]

/-- Rect::corner_points - the start points of the four boundary segments. -/
def Rect.cornerPoints (r : Rect) : List Coord :=
  [⟨r.x0, r.y0⟩, ⟨r.x1, r.y0⟩, ⟨r.x1, r.y1⟩, ⟨r.x0, r.y1⟩]

/-- Rect::contains_coord (inclusive bounds). -/
def containsCoord (r : Rect) (c : Coord) : Prop :=
  r.x0 ≤ c.x ∧ c.x ≤ r.x1 ∧ r.y0 ≤ c.y ∧ c.y ≤ r.y1

instance (r : Rect) (c : Coord) : Decidable (containsCoord r c) := by
  unfold containsCoord; infer_instance

/-- Rect::contains_segment. -/
def containsSegment (r : Rect) (s : LineQ) : Prop :=
  containsCoord r s.start ∧ containsCoord r s.stop

instance (r : Rect) (s : LineQ) : Decidable (containsSegment r s) := by
  unfold containsSegment; infer_instance

/-- Rect::is_crossing - both endpoints outside the rectangle. -/
def isCrossing (r : Rect) (s : LineQ) : Prop :=
  ¬containsCoord r s.start ∧ ¬containsCoord r s.stop

instance (r : Rect) (s : LineQ) : Decidable (isCrossing r s) := by
  unfold isCrossing; infer_instance

/-- Rect::is_corner. -/
def isCorner (r : Rect) (p : Coord) : Prop := p ∈ r.cornerPoints

instance (r : Rect) (p : Coord) : Decidable (isCorner r p) := by
  unfold isCorner; infer_instance

/-- Rect::clip_point. -/
def clipPoint (r : Rect) (p : Coord) : Option Coord :=
  if containsCoord r p then some p else none

/-- The fold in Rect::clip_segment that keeps only the first occurrence of
each intersection point. -/
def dedupKeepFirst (l : List Coord) : List Coord :=
  l.foldl (fun acc p => if p ∈ acc then acc else acc ++ [p]) []

/-- The deduplicated list of intersection points of a segment with the four
rectangle sides, in side order (the iterator consumed in clip_segment). -/
def isectPoints (r : Rect) (seg : LineQ) : List Coord :=
  dedupKeepFirst (r.linesL.filterMap (fun side => intersection side seg))

/-- Rect::clip_segment. -/
def clipSegment (r : Rect) (seg : LineQ) : Option LineQ :=
  if containsSegment r seg then some seg
  else
    match isectPoints r seg with
    | p1 :: p2 :: _ =>
      if manhattanDist seg.start p1 ≤ manhattanDist seg.start p2 then
        some ⟨p1, p2⟩
      else some ⟨p2, p1⟩
    | [p1] =>
      if isCrossing r seg ∧ isCorner r p1 then none
      else if containsCoord r seg.start then some ⟨seg.start, p1⟩
      else some ⟨p1, seg.stop⟩
    | [] => none

/-- One step of the grouping fold in Rect::clip_segments: append the
segment to the last group when it continues it, otherwise start a new
group.  (The inner `if let` of the Rust code silently drops the segment
for an empty last group; that branch is unreachable because groups are
never empty.) -/
def groupStep (acc : List (List LineQ)) (seg : LineQ) : List (List LineQ) :=
  match acc.getLast? with
  | some group =>
    match group.getLast? with
    | some last =>
      if last.stop = seg.start then acc.dropLast ++ [group ++ [seg]]
      else acc ++ [[seg]]
    | none => acc
  | none => [[seg]]

/-- The split-point search of Rect::clip_segments: the first cyclic index
at which consecutive clipped segments do not connect. -/
def findSplitOffset (segs : List LineQ) : Nat :=
  match (List.range segs.length).find?
      (fun i => decide (¬((segs.getD i default).stop =
                          (segs.getD ((i + 1) % segs.length) default).start))) with
  | some i => (i + 1) % segs.length
  | none => 0

/-- cycle().skip(k).take(n) for k < n: rotate the list left by k. -/
def rotate {α : Type} (l : List α) (k : Nat) : List α := l.drop k ++ l.take k

/-- Rect::clip_segments - clip every segment, then group the survivors
into maximal contiguous chains, starting at a true discontinuity. -/
def clipSegments (r : Rect) (segments : List LineQ) : List (List LineQ) :=
  let segs := segments.filterMap (clipSegment r)
  if segs.isEmpty then []
  else (rotate segs (findSplitOffset segs)).foldl groupStep []

/-- util::segments_to_linestring - the starts of all segments followed by
the last segment's end. -/
def segmentsToLinestring (segments : List LineQ) : List Coord :=
  match segments.getLast? with
  | some last => segments.dropLast.map LineQ.start ++ [last.start, last.stop]
  | none => []

/-- Rect::perimeter_index with the 4-iteration loop unrolled (iteration i
tests against corner i and adds the fractional offset along side i;
falling through all four iterations leaves f = 4.0). -/
def perimeterIndex (r : Rect) (p : Coord) : ℚ :=
  if p.y = r.y0 then (p.x - r.x0) / (r.x1 - r.x0)
  else if p.x = r.x1 then 1 + (p.y - r.y0) / (r.y1 - r.y0)
  else if p.y = r.y1 then 2 + (p.x - r.x1) / (r.x0 - r.x1)
  else if p.x = r.x0 then 3 + (p.y - r.y1) / (r.y0 - r.y1)
  else 4

/-- Rect::corner_nodes_between.  `as usize` on a non-negative float is
truncation (= floor) and saturates negative values to zero, which is
`Int.toNat ∘ Rat.floor`. -/
def cornerNodesBetween (r : Rect) (a b : ℚ) : List Coord :=
  let b' := if b < a then b + 4 else b
  let i := a.floor.toNat
  let j := b'.floor.toNat
  (List.range' i (j - i)).map (fun k => (r.linesL.getD (k % 4) default).stop)

/-- Modelled from the spec: `Rect::is_index_closer` is called by
`ClipRect::clip_polygon_ring` (lib.rs line 65) but the method itself is
absent from src/.  Per §4.6 step 3 of the spec, candidate index `idx`
qualifies when its forward wraparound-at-4 distance from the current
tail index is smaller than the forward distance to `pivot`, the popped
fragment's own start index, so the search never overshoots past closing
the fragment on itself. -/
def isIndexCloser (tail idx pivot : ℚ) : Bool :=
  decide ((if idx < tail then idx + 4 - tail else idx - tail) <
          (if pivot < tail then pivot + 4 - tail else pivot - tail))

/-- Stable insertion into a sorted-by-le list (ties keep the inserted
element first, i.e. original order). -/
def insertStable {α : Type} (le : α → α → Bool) (x : α) : List α → List α
  | [] => [x]
  | y :: ys => if le x y then x :: y :: ys else y :: insertStable le x ys

/-- A stable sort by the boolean comparator le.  Rust's `sort_by` is a
stable sort; any two stable sorts agree on every input, so this models
`queue.sort_by(|a, b| b.0.partial_cmp(&a.0).unwrap())` exactly (with
`le u v = (v.0 ≤ u.0)`, i.e. descending by perimeter index). -/
def sortStable {α : Type} (le : α → α → Bool) : List α → List α
  | [] => []
  | x :: xs => insertStable le x (sortStable le xs)

/-- iter().enumerate().rev().find(p): the index and value of the LAST
element satisfying the predicate. -/
def findRevEntry {α : Type} (p : α → Bool) : List α → Option (Nat × α)
  | [] => none
  | x :: xs =>
    match findRevEntry p xs with
    | some (i, y) => some (i + 1, y)
    | none => if p x then some (0, x) else none

/-- The work-queue loop of ClipRect::clip_polygon_ring.  The Rust `while`
terminates because every iteration decreases queue length plus the
number of open fragments; the fuel 2*len+1 supplied by `clipPolygonRing`
therefore always suffices.  Emitted rings are exactly the popped
fragments whose first coordinate equals their last. -/
def connectLoop (r : Rect) : Nat → List (ℚ × List Coord) → List (List Coord)
  | 0, _ => []
  | fuel + 1, queue =>
    match queue.getLast? with
    | none => []
    | some (pa, a) =>
      let q' := queue.dropLast
      if a.head? = a.getLast? then a :: connectLoop r fuel q'
      else
        let pTail := perimeterIndex r (a.getLastD default)
        match findRevEntry (fun e => isIndexCloser pTail e.1 pa) q' with
        | some (j, (pb, b)) =>
          connectLoop r fuel
            (q'.eraseIdx j ++ [(pa, a ++ cornerNodesBetween r pTail pb ++ b)])
        | none =>
          connectLoop r fuel
            (q' ++ [(pa, a ++ cornerNodesBetween r pTail pa ++ [a.headD default])])

/-- LineString::lines() - the consecutive coordinate pairs of a linestring. -/
def linesOf (g : List Coord) : List LineQ :=
  List.zipWith LineQ.mk g g.tail

/-- ClipRect::clip_polygon_ring: clip the ring's edges, convert each
fragment group to a coordinate chain tagged with the perimeter index of
its first coordinate, sort descending by that index (the Rust stable
sort_by with reversed comparator), then run the reconnection loop. -/
def clipPolygonRing (r : Rect) (g : List Coord) : List (List Coord) :=
  let queue :=
    ((clipSegments r (linesOf g)).map segmentsToLinestring).map
      (fun ls => (perimeterIndex r (ls.headD default), ls))
  let sorted := sortStable (fun u v => decide (v.1 ≤ u.1)) queue
  connectLoop r (2 * sorted.length + 1) sorted

/-- A polygon: an exterior ring and a list of interior rings (holes). -/
structure PolygonQ where
  exterior : List Coord
  interiors : List (List Coord)
deriving DecidableEq, Repr

/-- ClipRect::clip_polygon.  The src revision clips only the exterior ring
and attaches no interior rings (the interior handling is commented out
behind a TODO). -/
def clipPolygon (r : Rect) (g : PolygonQ) : List PolygonQ :=
  (clipPolygonRing r g.exterior).map (fun ls => PolygonQ.mk ls [])

/-- ClipRect::clip_linestring. -/
def clipLinestring (r : Rect) (g : List Coord) : List (List Coord) :=
  (clipSegments r (linesOf g)).map segmentsToLinestring

/-- The geo_types::Geometry variants handled by ClipRect::clip; `other`
stands for the unsupported variants (geometry collections, rects,
triangles) that fall into the `_ => None` arm. -/
inductive GeometryQ where
  | point : Coord → GeometryQ
  | line : LineQ → GeometryQ
  | lineString : List Coord → GeometryQ
  | polygon : PolygonQ → GeometryQ
  | multiPoint : List Coord → GeometryQ
  | multiLineString : List (List Coord) → GeometryQ
  | multiPolygon : List PolygonQ → GeometryQ
  | other : GeometryQ
deriving DecidableEq, Repr

/-- ClipRect::clip - the top-level dispatch. -/
def clip (r : Rect) : GeometryQ → Option GeometryQ
  | .point p => (clipPoint r p).map .point
  | .line l => (clipSegment r l).map .line
  | .lineString g => some (.multiLineString (clipLinestring r g))
  | .polygon g =>
    let g' := clipPolygon r g
    if g'.isEmpty then none else some (.multiPolygon g')
  | .multiPoint g => some (.multiPoint (g.filterMap (clipPoint r)))
  | .multiLineString g =>
    some (.multiLineString ((g.map (clipLinestring r)).flatten))
  | .multiPolygon g =>
    let polys := (g.map (clipPolygon r)).flatten
    if polys.isEmpty then none else some (.multiPolygon polys)
  | .other => none

/-- Spec-side definition (§4.4): the point reached after walking a
parameter t ∈ [0,4) along the rectangle boundary in traversal order
starting at corner (x0, y0). -/
def boundaryPoint (r : Rect) (t : ℚ) : Coord :=
  if t < 1 then ⟨r.x0 + t * (r.x1 - r.x0), r.y0⟩
  else if t < 2 then ⟨r.x1, r.y0 + (t - 1) * (r.y1 - r.y0)⟩
  else if t < 3 then ⟨r.x1 - (t - 2) * (r.x1 - r.x0), r.y1⟩
  else ⟨r.x0, r.y1 - (t - 3) * (r.y1 - r.y0)⟩

/-- Spec-side predicate: the point lies exactly on the rectangle boundary. -/
def onBoundary (r : Rect) (p : Coord) : Prop :=
  (p.y = r.y0 ∧ r.x0 ≤ p.x ∧ p.x ≤ r.x1) ∨
  (p.x = r.x1 ∧ r.y0 ≤ p.y ∧ p.y ≤ r.y1) ∨
  (p.y = r.y1 ∧ r.x0 ≤ p.x ∧ p.x ≤ r.x1) ∨
  (p.x = r.x0 ∧ r.y0 ≤ p.y ∧ p.y ≤ r.y1)

instance (r : Rect) (p : Coord) : Decidable (onBoundary r p) := by
  unfold onBoundary; infer_instance

/-- Spec-side: the number of distinct coordinates of a ring. -/
def countDistinct (ls : List Coord) : Nat := ls.dedup.length

/-- The 0..4 rectangle used throughout the repository's tests. -/
def testRect : Rect := ⟨0, 0, 4, 4⟩

end Klippa

namespace Klippa

@[simp] theorem Coord.mk_x (x y : ℚ) : (Coord.mk x y).x = x := rfl

@[simp] theorem Coord.mk_y (x y : ℚ) : (Coord.mk x y).y = y := rfl

/-! ### List-level helper lemmas -/

theorem mem_dedup_foldl (l : List Coord) :
    ∀ (acc : List Coord) (x : Coord),
      x ∈ l.foldl (fun acc p => if p ∈ acc then acc else acc ++ [p]) acc ↔
        x ∈ acc ∨ x ∈ l := by
  induction l with
  | nil => intro acc x; simp
  | cons p l ih =>
    intro acc x
    simp only [List.foldl_cons]
    by_cases hp : p ∈ acc
    · rw [if_pos hp, ih]
      constructor
      · rintro (h | h)
        · exact Or.inl h
        · exact Or.inr (List.mem_cons_of_mem _ h)
      · rintro (h | h)
        · exact Or.inl h
        · rcases List.mem_cons.1 h with h | h
          · exact Or.inl (h ▸ hp)
          · exact Or.inr h
    · rw [if_neg hp, ih]
      simp only [List.mem_append, List.mem_singleton, List.mem_cons]
      tauto

theorem mem_dedupKeepFirst {l : List Coord} {x : Coord} :
    x ∈ dedupKeepFirst l ↔ x ∈ l := by
  unfold dedupKeepFirst
  rw [mem_dedup_foldl]
  simp

theorem nodup_dedup_foldl (l : List Coord) :
    ∀ (acc : List Coord), acc.Nodup →
      (l.foldl (fun acc p => if p ∈ acc then acc else acc ++ [p]) acc).Nodup := by
  induction l with
  | nil => intro acc h; simpa using h
  | cons p l ih =>
    intro acc h
    simp only [List.foldl_cons]
    by_cases hp : p ∈ acc
    · rw [if_pos hp]; exact ih acc h
    · rw [if_neg hp]
      refine ih _ ?_
      simpa [List.nodup_append] using ⟨h, hp⟩

theorem dedupKeepFirst_nodup (l : List Coord) : (dedupKeepFirst l).Nodup :=
  nodup_dedup_foldl l [] List.nodup_nil

theorem mem_isectPoints {r : Rect} {seg : LineQ} {p : Coord} :
    p ∈ isectPoints r seg ↔
      ∃ side ∈ r.linesL, intersection side seg = some p := by
  unfold isectPoints
  rw [mem_dedupKeepFirst, List.mem_filterMap]

/-! ### Soundness of the intersection predicate -/

/-- Inversion for the vertical core: a returned point lies on A's line
within A's closed y-span, and is either B's start point or the parametric
crossing point of B with A's line at an interior parameter, B's endpoints
then strictly straddling the line. -/
theorem intersectionV_some (a b : LineQ) (p : Coord)
    (hX : a.stop.x = a.start.x)
    (h : intersectionV a b = some p) :
    p.x = a.start.x ∧
    (min a.start.y a.stop.y ≤ p.y ∧ p.y ≤ max a.start.y a.stop.y) ∧
    (p = b.start ∨
      ∃ t, 0 < t ∧ t < 1 ∧ p = pointAt b t ∧
        ((b.start.x < a.start.x ∧ a.start.x < b.stop.x) ∨
         (b.stop.x < a.start.x ∧ a.start.x < b.start.x))) := by
  simp only [intersectionV] at h
  split_ifs at h with hg1 hg2
  push_neg at hg1
  obtain ⟨hsgn, habs⟩ := hg1
  rw [not_or] at hg2
  obtain ⟨hlo, hhi⟩ := hg2
  injection h with h
  subst h
  have hdxb : b.dx ≠ 0 := by
    intro h0
    rw [h0] at habs
    simp only [abs_zero] at habs
    exact (abs_nonneg _).not_lt habs
  by_cases hc : a.start.x - b.start.x = 0
  · -- B starts on A's line: the returned point is b.start itself.
    have hbx : a.start.x = b.start.x := by linarith [sub_eq_zero.mp hc]
    rw [hX] at hlo hhi
    rw [hc] at hlo hhi
    rw [hc]
    refine ⟨by simp [hbx], ?_, Or.inl (by simp)⟩
    -- bounds on b.start.y via the infinite/NaN chord slopes
    simp only [Coord.mk_y, zero_mul, add_zero]
    rcases lt_trichotomy (a.start.y - b.start.y) 0 with h1 | h1 | h1 <;>
      rcases lt_trichotomy (a.stop.y - b.start.y) 0 with h2 | h2 | h2
    · -- both chords below: fmax = ninf, contradiction with hhi
      exfalso
      simp [fdiv, h1, h2, not_lt_of_gt h1, not_lt_of_gt h2, fmax, flt] at hhi
    · exfalso
      simp [fdiv, h1, h2, not_lt_of_gt h1, lt_irrefl, fmax, flt] at hhi
    · constructor
      · exact le_trans (min_le_left _ _) (by linarith)
      · exact le_trans (by linarith) (le_max_right _ _)
    · exfalso
      simp [fdiv, h1, h2, not_lt_of_gt h2, lt_irrefl, fmax, flt] at hhi
    · constructor
      · exact le_trans (min_le_left _ _) (by linarith)
      · exact le_trans (by linarith) (le_max_left _ _)
    · exfalso
      simp [fdiv, h1, h2, lt_irrefl, fmin, flt] at hlo
    · constructor
      · exact le_trans (min_le_right _ _) (by linarith)
      · exact le_trans (by linarith) (le_max_left _ _)
    · exfalso
      simp [fdiv, h1, h2, lt_irrefl, fmin, flt] at hlo
    · exfalso
      simp [fdiv, h1, h2, fmin, flt] at hlo
  · -- proper crossing at parameter t = dx_c / dx_b
    rw [hX] at hlo hhi
    set dxc := a.start.x - b.start.x with hdef
    have hbdx : b.dx = b.stop.x - b.start.x := rfl
    have hsx : b.start.x + dxc = a.start.x := by rw [hdef]; ring
    have hstr : 0 < dxc / b.dx ∧ dxc / b.dx < 1 ∧
        ((b.start.x < a.start.x ∧ a.start.x < b.stop.x) ∨
         (b.stop.x < a.start.x ∧ a.start.x < b.start.x)) := by
      rcases hdxb.lt_or_lt with hb | hb
      · have hcneg : dxc < 0 := by
          rcases lt_or_ge dxc 0 with h0 | h0
          · exact h0
          · exact absurd (hsgn.mp h0) (by linarith)
        have h1 : b.dx < dxc := by
          rw [abs_of_neg hcneg, abs_of_neg hb] at habs
          linarith
        refine ⟨div_pos_iff.mpr (Or.inr ⟨hcneg, hb⟩), ?_, Or.inr ⟨by linarith, by linarith⟩⟩
        have h2 : dxc / b.dx - 1 = (dxc - b.dx) / b.dx := by field_simp
        have h3 : (dxc - b.dx) / b.dx < 0 := div_neg_of_pos_of_neg (by linarith) hb
        linarith
      · have hcpos : 0 < dxc := lt_of_le_of_ne (hsgn.mpr hb.le) (Ne.symm hc)
        have h1 : dxc < b.dx := by
          rw [abs_of_pos hcpos, abs_of_pos hb] at habs
          exact habs
        exact ⟨div_pos hcpos hb, (div_lt_one hb).mpr h1,
          Or.inl ⟨by linarith, by linarith⟩⟩
    obtain ⟨ht0, ht1, hside⟩ := hstr
    refine ⟨by simpa using hsx, ?_, Or.inr ⟨dxc / b.dx, ht0, ht1, ?_, hside⟩⟩
    · -- the returned y is between A's endpoint ys
      have hfc : fdiv (a.start.y - b.start.y) dxc =
          .fin ((a.start.y - b.start.y) / dxc) := by simp [fdiv, hc]
      have hfd : fdiv (a.stop.y - b.start.y) dxc =
          .fin ((a.stop.y - b.start.y) / dxc) := by simp [fdiv, hc]
      rw [hfc, hfd] at hlo hhi
      set sb := b.dy / b.dx with hsb
      set sc := (a.start.y - b.start.y) / dxc with hsc
      set sd := (a.stop.y - b.start.y) / dxc with hsd
      simp only [fmin, fmax, flt, decide_eq_true_eq] at hlo hhi
      have hlo' : min sc sd ≤ sb := not_lt.mp hlo
      have hhi' : sb ≤ max sc sd := not_lt.mp hhi
      have hyc : dxc * sc = a.start.y - b.start.y := by
        rw [hsc]; field_simp
      have hyd : dxc * sd = a.stop.y - b.start.y := by
        rw [hsd]; field_simp
      simp only [Coord.mk_y]
      rcases min_le_iff.mp hlo' with h1 | h1 <;> rcases le_max_iff.mp hhi' with h2 | h2
      · have hsbc : sb = sc := le_antisymm h2 h1
        rw [hsbc]
        constructor
        · linarith [min_le_left a.start.y a.stop.y]
        · linarith [le_max_left a.start.y a.stop.y]
      · rcases Ne.lt_or_lt hc with hneg | hpos
        · have A := mul_le_mul_of_nonpos_left h1 hneg.le
          have B := mul_le_mul_of_nonpos_left h2 hneg.le
          constructor
          · linarith [min_le_right a.start.y a.stop.y]
          · linarith [le_max_left a.start.y a.stop.y]
        · have A := mul_le_mul_of_nonneg_left h1 hpos.le
          have B := mul_le_mul_of_nonneg_left h2 hpos.le
          constructor
          · linarith [min_le_left a.start.y a.stop.y]
          · linarith [le_max_right a.start.y a.stop.y]
      · rcases Ne.lt_or_lt hc with hneg | hpos
        · have A := mul_le_mul_of_nonpos_left h1 hneg.le
          have B := mul_le_mul_of_nonpos_left h2 hneg.le
          constructor
          · linarith [min_le_left a.start.y a.stop.y]
          · linarith [le_max_right a.start.y a.stop.y]
        · have A := mul_le_mul_of_nonneg_left h1 hpos.le
          have B := mul_le_mul_of_nonneg_left h2 hpos.le
          constructor
          · linarith [min_le_right a.start.y a.stop.y]
          · linarith [le_max_left a.start.y a.stop.y]
      · have hsbd : sb = sd := le_antisymm h2 h1
        rw [hsbd]
        constructor
        · linarith [min_le_right a.start.y a.stop.y]
        · linarith [le_max_right a.start.y a.stop.y]
    · -- the returned point is the parametric crossing point
      simp only [pointAt, Coord.mk.injEq]
      constructor
      · rw [div_mul_cancel₀ _ hdxb]
      · field_simp

end Klippa

namespace Klippa

/-! ### Completeness of the intersection predicate -/

theorem div_le_div_same_pos (u w c : ℚ) (hc : 0 < c) (h : u ≤ w) :
    u / c ≤ w / c := by
  have h2 : 0 ≤ (w - u) / c := div_nonneg (by linarith) hc.le
  rw [sub_div] at h2
  linarith

theorem div_le_div_same_neg (u w c : ℚ) (hc : c < 0) (h : u ≤ w) :
    w / c ≤ u / c := by
  have h2 : 0 ≤ (w - u) / -c := div_nonneg (by linarith) (by linarith)
  rw [div_neg, sub_div] at h2
  linarith

/-- Completeness for the vertical core: if B crosses A's line at a strictly
interior parameter and the crossing point lies within A's closed y-span,
the predicate reports exactly that point. -/
theorem intersectionV_cross (a b : LineQ)
    (hX : a.stop.x = a.start.x)
    (t : ℚ) (ht0 : 0 < t) (ht1 : t < 1)
    (hcross : b.start.x + t * b.dx = a.start.x)
    (hd : b.dx ≠ 0)
    (hylo : min a.start.y a.stop.y ≤ b.start.y + t * b.dy)
    (hyhi : b.start.y + t * b.dy ≤ max a.start.y a.stop.y) :
    intersectionV a b = some (pointAt b t) := by
  have hdxc : a.start.x - b.start.x = t * b.dx := by linarith
  have hdxc0 : a.start.x - b.start.x ≠ 0 := by
    rw [hdxc]; exact mul_ne_zero (ne_of_gt ht0) hd
  have hsbeq : b.dy / b.dx = (t * b.dy) / (a.start.x - b.start.x) := by
    rw [hdxc, mul_div_mul_left _ _ (ne_of_gt ht0)]
  have hG1 : ¬(¬((0:ℚ) ≤ a.start.x - b.start.x ↔ 0 ≤ b.dx) ∨
      |b.dx| ≤ |a.start.x - b.start.x|) := by
    rw [not_or, not_not]
    constructor
    · rw [hdxc]
      constructor
      · intro h
        rcases le_or_lt 0 b.dx with h2 | h2
        · exact h2
        · nlinarith
      · intro h
        exact mul_nonneg ht0.le h
    · rw [not_le, hdxc, abs_mul, abs_of_pos ht0]
      have habs : 0 < |b.dx| := abs_pos.mpr hd
      nlinarith
  simp only [intersectionV]
  rw [if_neg hG1, hX]
  have hfc : fdiv (a.start.y - b.start.y) (a.start.x - b.start.x) =
      .fin ((a.start.y - b.start.y) / (a.start.x - b.start.x)) := by
    simp [fdiv, hdxc0]
  have hfd : fdiv (a.stop.y - b.start.y) (a.start.x - b.start.x) =
      .fin ((a.stop.y - b.start.y) / (a.start.x - b.start.x)) := by
    simp [fdiv, hdxc0]
  rw [hfc, hfd]
  have hG2 : ¬(flt (.fin (b.dy / b.dx))
        (fmin (.fin ((a.start.y - b.start.y) / (a.start.x - b.start.x)))
              (.fin ((a.stop.y - b.start.y) / (a.start.x - b.start.x)))) = true ∨
      flt (fmax (.fin ((a.start.y - b.start.y) / (a.start.x - b.start.x)))
                (.fin ((a.stop.y - b.start.y) / (a.start.x - b.start.x))))
        (.fin (b.dy / b.dx)) = true) := by
    simp only [fmin, fmax, flt, decide_eq_true_eq, not_or, not_lt]
    rw [hsbeq]
    rcases Ne.lt_or_lt hdxc0 with hneg | hpos
    · rcases le_total a.start.y a.stop.y with hay | hay
      · rw [min_eq_left hay] at hylo
        rw [max_eq_right hay] at hyhi
        constructor
        · exact le_trans (min_le_right _ _)
            (div_le_div_same_neg _ _ _ hneg (by linarith))
        · exact le_trans (div_le_div_same_neg _ _ _ hneg (by linarith))
            (le_max_left _ _)
      · rw [min_eq_right hay] at hylo
        rw [max_eq_left hay] at hyhi
        constructor
        · exact le_trans (min_le_left _ _)
            (div_le_div_same_neg _ _ _ hneg (by linarith))
        · exact le_trans (div_le_div_same_neg _ _ _ hneg (by linarith))
            (le_max_right _ _)
    · rcases le_total a.start.y a.stop.y with hay | hay
      · rw [min_eq_left hay] at hylo
        rw [max_eq_right hay] at hyhi
        constructor
        · exact le_trans (min_le_left _ _)
            (div_le_div_same_pos _ _ _ hpos (by linarith))
        · exact le_trans (div_le_div_same_pos _ _ _ hpos (by linarith))
            (le_max_right _ _)
      · rw [min_eq_right hay] at hylo
        rw [max_eq_left hay] at hyhi
        constructor
        · exact le_trans (min_le_right _ _)
            (div_le_div_same_pos _ _ _ hpos (by linarith))
        · exact le_trans (div_le_div_same_pos _ _ _ hpos (by linarith))
            (le_max_left _ _)
  rw [if_neg hG2]
  congr 1
  simp only [pointAt, Coord.mk.injEq]
  constructor
  · linarith
  · rw [hdxc]
    field_simp
    ring

end Klippa

namespace Klippa

/-! ### Wrappers for the general intersection (vertical / horizontal A) -/

@[simp] theorem Coord.yx_yx (c : Coord) : c.yx.yx = c := rfl

theorem pointAt_swap (b : LineQ) (t : ℚ) :
    (pointAt b.swapAxes t).yx = pointAt b t := by
  simp [pointAt, LineQ.swapAxes, Coord.yx, LineQ.dx, LineQ.dy]

theorem intersection_someV (a b : LineQ) (p : Coord)
    (hvert : a.start.x = a.stop.x)
    (h : intersection a b = some p) :
    p.x = a.start.x ∧
    (min a.start.y a.stop.y ≤ p.y ∧ p.y ≤ max a.start.y a.stop.y) ∧
    (p = b.start ∨
      ∃ t, 0 < t ∧ t < 1 ∧ p = pointAt b t ∧
        ((b.start.x < a.start.x ∧ a.start.x < b.stop.x) ∨
         (b.stop.x < a.start.x ∧ a.start.x < b.start.x))) := by
  rw [intersection, if_pos hvert] at h
  exact intersectionV_some a b p hvert.symm h

theorem intersection_someH (a b : LineQ) (p : Coord)
    (hnv : ¬(a.start.x = a.stop.x)) (hhor : a.start.y = a.stop.y)
    (h : intersection a b = some p) :
    p.y = a.start.y ∧
    (min a.start.x a.stop.x ≤ p.x ∧ p.x ≤ max a.start.x a.stop.x) ∧
    (p = b.start ∨
      ∃ t, 0 < t ∧ t < 1 ∧ p = pointAt b t ∧
        ((b.start.y < a.start.y ∧ a.start.y < b.stop.y) ∨
         (b.stop.y < a.start.y ∧ a.start.y < b.start.y))) := by
  rw [intersection, if_neg hnv, if_pos hhor] at h
  rw [Option.map_eq_some'] at h
  obtain ⟨q, hq, hqp⟩ := h
  have hX : a.swapAxes.stop.x = a.swapAxes.start.x := by
    simp [LineQ.swapAxes, Coord.yx, hhor]
  obtain ⟨h1, h2, h3⟩ := intersectionV_some a.swapAxes b.swapAxes q hX hq
  subst hqp
  refine ⟨h1, by simpa [LineQ.swapAxes, Coord.yx] using h2, ?_⟩
  rcases h3 with h3 | ⟨t, ht0, ht1, hpt, hstr⟩
  · left
    rw [h3]
    rfl
  · right
    refine ⟨t, ht0, ht1, ?_, ?_⟩
    · rw [hpt, pointAt_swap]
    · simpa [LineQ.swapAxes, Coord.yx] using hstr

theorem intersection_crossV (a b : LineQ)
    (hvert : a.start.x = a.stop.x)
    (t : ℚ) (ht0 : 0 < t) (ht1 : t < 1)
    (hcross : b.start.x + t * b.dx = a.start.x)
    (hd : b.dx ≠ 0)
    (hylo : min a.start.y a.stop.y ≤ b.start.y + t * b.dy)
    (hyhi : b.start.y + t * b.dy ≤ max a.start.y a.stop.y) :
    intersection a b = some (pointAt b t) := by
  rw [intersection, if_pos hvert]
  exact intersectionV_cross a b hvert.symm t ht0 ht1 hcross hd hylo hyhi

theorem intersection_crossH (a b : LineQ)
    (hnv : ¬(a.start.x = a.stop.x)) (hhor : a.start.y = a.stop.y)
    (t : ℚ) (ht0 : 0 < t) (ht1 : t < 1)
    (hcross : b.start.y + t * b.dy = a.start.y)
    (hd : b.dy ≠ 0)
    (hxlo : min a.start.x a.stop.x ≤ b.start.x + t * b.dx)
    (hxhi : b.start.x + t * b.dx ≤ max a.start.x a.stop.x) :
    intersection a b = some (pointAt b t) := by
  rw [intersection, if_neg hnv, if_pos hhor]
  have hX : a.swapAxes.stop.x = a.swapAxes.start.x := by
    simp [LineQ.swapAxes, Coord.yx, hhor]
  have key := intersectionV_cross a.swapAxes b.swapAxes hX t ht0 ht1
    (by simpa [LineQ.swapAxes, Coord.yx, LineQ.dx, LineQ.dy] using hcross)
    (by simpa [LineQ.swapAxes, LineQ.dx, Coord.yx] using hd)
    (by simpa [LineQ.swapAxes, Coord.yx, LineQ.dx, LineQ.dy] using hxlo)
    (by simpa [LineQ.swapAxes, Coord.yx, LineQ.dx, LineQ.dy] using hxhi)
  rw [key]
  simp [pointAt_swap]

end Klippa

namespace Klippa

@[simp] theorem LineQ.mk_start (s e : Coord) : (LineQ.mk s e).start = s := rfl

@[simp] theorem LineQ.mk_stop (s e : Coord) : (LineQ.mk s e).stop = e := rfl

/-! ### Per-side soundness -/

theorem sound_line0 (r : Rect) (b : LineQ) (p : Coord)
    (hne : ¬(r.x0 = r.x1)) (h : intersection r.line0 b = some p) :
    p.y = r.y0 ∧ (min r.x0 r.x1 ≤ p.x ∧ p.x ≤ max r.x0 r.x1) ∧
    (p = b.start ∨
      ∃ t, 0 < t ∧ t < 1 ∧ p = pointAt b t ∧
        ((b.start.y < r.y0 ∧ r.y0 < b.stop.y) ∨
         (b.stop.y < r.y0 ∧ r.y0 < b.start.y))) :=
  intersection_someH r.line0 b p hne rfl h

theorem sound_line1 (r : Rect) (b : LineQ) (p : Coord)
    (h : intersection r.line1 b = some p) :
    p.x = r.x1 ∧ (min r.y0 r.y1 ≤ p.y ∧ p.y ≤ max r.y0 r.y1) ∧
    (p = b.start ∨
      ∃ t, 0 < t ∧ t < 1 ∧ p = pointAt b t ∧
        ((b.start.x < r.x1 ∧ r.x1 < b.stop.x) ∨
         (b.stop.x < r.x1 ∧ r.x1 < b.start.x))) :=
  intersection_someV r.line1 b p rfl h

theorem sound_line2 (r : Rect) (b : LineQ) (p : Coord)
    (hne : ¬(r.x0 = r.x1)) (h : intersection r.line2 b = some p) :
    p.y = r.y1 ∧ (min r.x0 r.x1 ≤ p.x ∧ p.x ≤ max r.x0 r.x1) ∧
    (p = b.start ∨
      ∃ t, 0 < t ∧ t < 1 ∧ p = pointAt b t ∧
        ((b.start.y < r.y1 ∧ r.y1 < b.stop.y) ∨
         (b.stop.y < r.y1 ∧ r.y1 < b.start.y))) := by
  have key := intersection_someH r.line2 b p (fun he => hne he.symm) rfl h
  simp only [Rect.line2, LineQ.mk_start, LineQ.mk_stop, Coord.mk_x, Coord.mk_y] at key
  rwa [min_comm r.x1 r.x0, max_comm r.x1 r.x0] at key

theorem sound_line3 (r : Rect) (b : LineQ) (p : Coord)
    (h : intersection r.line3 b = some p) :
    p.x = r.x0 ∧ (min r.y0 r.y1 ≤ p.y ∧ p.y ≤ max r.y0 r.y1) ∧
    (p = b.start ∨
      ∃ t, 0 < t ∧ t < 1 ∧ p = pointAt b t ∧
        ((b.start.x < r.x0 ∧ r.x0 < b.stop.x) ∨
         (b.stop.x < r.x0 ∧ r.x0 < b.start.x))) := by
  have key := intersection_someV r.line3 b p rfl h
  simp only [Rect.line3, LineQ.mk_start, LineQ.mk_stop, Coord.mk_x, Coord.mk_y] at key
  rwa [min_comm r.y1 r.y0, max_comm r.y1 r.y0] at key

/-! ### Per-side completeness -/

theorem cross_line0 (r : Rect) (b : LineQ)
    (hne : ¬(r.x0 = r.x1))
    (t : ℚ) (ht0 : 0 < t) (ht1 : t < 1)
    (hcross : b.start.y + t * b.dy = r.y0)
    (hd : b.dy ≠ 0)
    (hxlo : r.x0 ≤ b.start.x + t * b.dx)
    (hxhi : b.start.x + t * b.dx ≤ r.x1) :
    intersection r.line0 b = some (pointAt b t) :=
  intersection_crossH r.line0 b hne rfl t ht0 ht1 hcross hd
    (le_trans (min_le_left _ _) hxlo) (le_trans hxhi (le_max_right _ _))

theorem cross_line1 (r : Rect) (b : LineQ)
    (t : ℚ) (ht0 : 0 < t) (ht1 : t < 1)
    (hcross : b.start.x + t * b.dx = r.x1)
    (hd : b.dx ≠ 0)
    (hylo : r.y0 ≤ b.start.y + t * b.dy)
    (hyhi : b.start.y + t * b.dy ≤ r.y1) :
    intersection r.line1 b = some (pointAt b t) :=
  intersection_crossV r.line1 b rfl t ht0 ht1 hcross hd
    (le_trans (min_le_left _ _) hylo) (le_trans hyhi (le_max_right _ _))

theorem cross_line2 (r : Rect) (b : LineQ)
    (hne : ¬(r.x0 = r.x1))
    (t : ℚ) (ht0 : 0 < t) (ht1 : t < 1)
    (hcross : b.start.y + t * b.dy = r.y1)
    (hd : b.dy ≠ 0)
    (hxlo : r.x0 ≤ b.start.x + t * b.dx)
    (hxhi : b.start.x + t * b.dx ≤ r.x1) :
    intersection r.line2 b = some (pointAt b t) :=
  intersection_crossH r.line2 b (fun he => hne he.symm) rfl t ht0 ht1 hcross hd
    (le_trans (min_le_right _ _) hxlo) (le_trans hxhi (le_max_left _ _))

theorem cross_line3 (r : Rect) (b : LineQ)
    (t : ℚ) (ht0 : 0 < t) (ht1 : t < 1)
    (hcross : b.start.x + t * b.dx = r.x0)
    (hd : b.dx ≠ 0)
    (hylo : r.y0 ≤ b.start.y + t * b.dy)
    (hyhi : b.start.y + t * b.dy ≤ r.y1) :
    intersection r.line3 b = some (pointAt b t) :=
  intersection_crossV r.line3 b rfl t ht0 ht1 hcross hd
    (le_trans (min_le_right _ _) hylo) (le_trans hyhi (le_max_left _ _))

end Klippa

namespace Klippa

/-! ### Affine crossing helpers -/

theorem cross_up {s d A u v : ℚ} (huv : u < v)
    (h1 : s + u * d < A) (h2 : A < s + v * d) :
    ∃ t, u < t ∧ t < v ∧ s + t * d = A ∧ 0 < d := by
  have hd : 0 < d := by
    by_contra hcon
    push_neg at hcon
    have h3 : (v - u) * d ≤ 0 := mul_nonpos_of_nonneg_of_nonpos (by linarith) hcon
    nlinarith [h3]
  refine ⟨(A - s) / d, ?_, ?_, ?_, hd⟩
  · rw [lt_div_iff₀ hd]; linarith
  · rw [div_lt_iff₀ hd]; linarith
  · rw [div_mul_cancel₀ _ (ne_of_gt hd)]; ring

theorem cross_down {s d A u v : ℚ} (huv : u < v)
    (h1 : A < s + u * d) (h2 : s + v * d < A) :
    ∃ t, u < t ∧ t < v ∧ s + t * d = A ∧ d < 0 := by
  have hd : d < 0 := by
    by_contra hcon
    push_neg at hcon
    have h3 : 0 ≤ (v - u) * d := mul_nonneg (by linarith) hcon
    nlinarith [h3]
  refine ⟨(A - s) / d, ?_, ?_, ?_, hd⟩
  · rw [lt_div_iff_of_neg hd]; linarith
  · rw [div_lt_iff_of_neg hd]; linarith
  · rw [div_mul_cancel₀ _ (ne_of_lt hd)]; ring

theorem affine_le_of_between (s d B : ℚ) {u v t : ℚ} (hu : u ≤ t) (hv : t ≤ v)
    (h1 : s + u * d ≤ B) (h2 : s + v * d ≤ B) : s + t * d ≤ B := by
  rcases le_or_lt 0 d with hd | hd
  · have h3 : t * d ≤ v * d := mul_le_mul_of_nonneg_right hv hd
    linarith
  · have h3 : t * d ≤ u * d := mul_le_mul_of_nonpos_right hu hd.le
    linarith

theorem affine_ge_of_between (s d B : ℚ) {u v t : ℚ} (hu : u ≤ t) (hv : t ≤ v)
    (h1 : B ≤ s + u * d) (h2 : B ≤ s + v * d) : B ≤ s + t * d := by
  rcases le_or_lt 0 d with hd | hd
  · have h3 : u * d ≤ t * d := mul_le_mul_of_nonneg_right hu hd
    linarith
  · have h3 : v * d ≤ t * d := mul_le_mul_of_nonpos_right hv hd.le
    linarith

/-! ### Abstract crossing data for one of the four boundary lines -/

/-- The segment crosses one of the rectangle's four boundary lines at
parameter t, transversally on that axis, with the crossing point inside
the corresponding side's closed span.  This is exactly the data the
per-side completeness lemmas consume, and it is invariant under
reversing the segment (t becoming 1 - t). -/
def crossData (r : Rect) (b : LineQ) (t : ℚ) : Prop :=
  (b.start.x + t * b.dx = r.x1 ∧ b.dx ≠ 0 ∧
    r.y0 ≤ b.start.y + t * b.dy ∧ b.start.y + t * b.dy ≤ r.y1) ∨
  (b.start.x + t * b.dx = r.x0 ∧ b.dx ≠ 0 ∧
    r.y0 ≤ b.start.y + t * b.dy ∧ b.start.y + t * b.dy ≤ r.y1) ∨
  (b.start.y + t * b.dy = r.y0 ∧ b.dy ≠ 0 ∧
    r.x0 ≤ b.start.x + t * b.dx ∧ b.start.x + t * b.dx ≤ r.x1) ∨
  (b.start.y + t * b.dy = r.y1 ∧ b.dy ≠ 0 ∧
    r.x0 ≤ b.start.x + t * b.dx ∧ b.start.x + t * b.dx ≤ r.x1)

theorem detect_of_crossData (r : Rect) (b : LineQ) (t : ℚ)
    (hne : ¬(r.x0 = r.x1)) (ht0 : 0 < t) (ht1 : t < 1)
    (h : crossData r b t) :
    ∃ s ∈ r.linesL, intersection s b = some (pointAt b t) := by
  rcases h with ⟨h1, h2, h3, h4⟩ | ⟨h1, h2, h3, h4⟩ | ⟨h1, h2, h3, h4⟩ | ⟨h1, h2, h3, h4⟩
  · exact ⟨r.line1, by simp [Rect.linesL], cross_line1 r b t ht0 ht1 h1 h2 h3 h4⟩
  · exact ⟨r.line3, by simp [Rect.linesL], cross_line3 r b t ht0 ht1 h1 h2 h3 h4⟩
  · exact ⟨r.line0, by simp [Rect.linesL], cross_line0 r b hne t ht0 ht1 h1 h2 h3 h4⟩
  · exact ⟨r.line2, by simp [Rect.linesL], cross_line2 r b hne t ht0 ht1 h1 h2 h3 h4⟩

/-- Reverse for Line (geom.rs Reverse impl). -/
def LineQ.reverse (l : LineQ) : LineQ := ⟨l.stop, l.start⟩

theorem pointAt_reverse (b : LineQ) (t : ℚ) :
    pointAt b.reverse t = pointAt b (1 - t) := by
  simp only [pointAt, LineQ.reverse, LineQ.dx, LineQ.dy, LineQ.mk_start,
    LineQ.mk_stop, Coord.mk.injEq]
  constructor <;> ring

theorem crossData_reverse (r : Rect) (b : LineQ) (t : ℚ)
    (h : crossData r b.reverse t) : crossData r b (1 - t) := by
  have ex : b.reverse.start.x + t * b.reverse.dx = b.start.x + (1 - t) * b.dx := by
    simp only [LineQ.reverse, LineQ.dx, LineQ.mk_start, LineQ.mk_stop]
    ring
  have ey : b.reverse.start.y + t * b.reverse.dy = b.start.y + (1 - t) * b.dy := by
    simp only [LineQ.reverse, LineQ.dy, LineQ.mk_start, LineQ.mk_stop]
    ring
  have edx : b.reverse.dx = -b.dx := by
    simp only [LineQ.reverse, LineQ.dx, LineQ.mk_start, LineQ.mk_stop]
    ring
  have edy : b.reverse.dy = -b.dy := by
    simp only [LineQ.reverse, LineQ.dy, LineQ.mk_start, LineQ.mk_stop]
    ring
  unfold crossData at h ⊢
  rw [ex, ey, edx, edy] at h
  simpa [neg_ne_zero] using h

/-- If the segment is inside the rectangle at parameter u but its stop
endpoint is outside, some boundary-line crossing with valid span data
occurs strictly between u and 1 - provided the point at u does not lie
on any boundary line that the stop endpoint violates. -/
theorem exitDetect (r : Rect) (b : LineQ)
    (hx : r.x0 < r.x1) (hy : r.y0 < r.y1)
    (u : ℚ) (_hu0 : 0 < u) (hu1 : u < 1)
    (hcont : containsCoord r (pointAt b u))
    (hnot : ¬containsCoord r b.stop)
    (hax0 : b.stop.x < r.x0 → (pointAt b u).x ≠ r.x0)
    (hax1 : r.x1 < b.stop.x → (pointAt b u).x ≠ r.x1)
    (hay0 : b.stop.y < r.y0 → (pointAt b u).y ≠ r.y0)
    (hay1 : r.y1 < b.stop.y → (pointAt b u).y ≠ r.y1) :
    ∃ t, u < t ∧ t < 1 ∧ crossData r b t := by
  simp only [containsCoord, pointAt, Coord.mk_x, Coord.mk_y] at hcont
  obtain ⟨hc1, hc2, hc3, hc4⟩ := hcont
  simp only [pointAt, Coord.mk_x, Coord.mk_y] at hax0 hax1 hay0 hay1
  have hbx : b.stop.x = b.start.x + 1 * b.dx := by
    simp only [LineQ.dx]; ring
  have hby : b.stop.y = b.start.y + 1 * b.dy := by
    simp only [LineQ.dy]; ring
  have hviol : b.stop.x < r.x0 ∨ r.x1 < b.stop.x ∨
      b.stop.y < r.y0 ∨ r.y1 < b.stop.y := by
    by_contra hcon
    push_neg at hcon
    exact hnot ⟨hcon.1, hcon.2.1, hcon.2.2.1, hcon.2.2.2⟩
  rcases hviol with h | h | h | h
  · -- the stop endpoint is left of the rectangle: cross x = x0 going down
    have hxu : r.x0 < b.start.x + u * b.dx := lt_of_le_of_ne hc1 (Ne.symm (hax0 h))
    have hx1' : b.start.x + 1 * b.dx < r.x0 := by rw [← hbx]; exact h
    obtain ⟨t1, ht1u, ht1v, ht1eq, hdneg⟩ := cross_down hu1 hxu hx1'
    rcases le_or_lt (b.start.y + t1 * b.dy) r.y1 with hyhi2 | hyhi2
    · rcases le_or_lt r.y0 (b.start.y + t1 * b.dy) with hylo2 | hylo2
      · exact ⟨t1, ht1u, ht1v,
          Or.inr (Or.inl ⟨ht1eq, ne_of_lt hdneg, hylo2, hyhi2⟩)⟩
      · -- the crossing of x0 falls below the span: cross y = y0 first
        have hstopy : b.stop.y < r.y0 := by
          by_contra hcon
          push_neg at hcon
          rw [hby] at hcon
          have h2 := affine_ge_of_between b.start.y b.dy r.y0 ht1u.le ht1v.le hc3 hcon
          exact absurd h2 (not_le.mpr hylo2)
        have hyu : r.y0 < b.start.y + u * b.dy :=
          lt_of_le_of_ne hc3 (Ne.symm (hay0 hstopy))
        obtain ⟨t2, ht2u, ht2v, ht2eq, hdyneg⟩ := cross_down ht1u hyu hylo2
        have hxlo2 : r.x0 ≤ b.start.x + t2 * b.dx :=
          affine_ge_of_between _ _ _ ht2u.le ht2v.le hc1 (le_of_eq ht1eq.symm)
        have hxhi2 : b.start.x + t2 * b.dx ≤ r.x1 :=
          affine_le_of_between _ _ _ ht2u.le ht2v.le hc2 (by rw [ht1eq]; exact hx.le)
        exact ⟨t2, ht2u, lt_trans ht2v ht1v,
          Or.inr (Or.inr (Or.inl ⟨ht2eq, ne_of_lt hdyneg, hxlo2, hxhi2⟩))⟩
    · -- the crossing of x0 falls above the span: cross y = y1 first
      have hstopy : r.y1 < b.stop.y := by
        by_contra hcon
        push_neg at hcon
        rw [hby] at hcon
        have h2 := affine_le_of_between b.start.y b.dy r.y1 ht1u.le ht1v.le hc4 hcon
        exact absurd h2 (not_le.mpr hyhi2)
      have hyu : b.start.y + u * b.dy < r.y1 := lt_of_le_of_ne hc4 (hay1 hstopy)
      obtain ⟨t2, ht2u, ht2v, ht2eq, hdypos⟩ := cross_up ht1u hyu hyhi2
      have hxlo2 : r.x0 ≤ b.start.x + t2 * b.dx :=
        affine_ge_of_between _ _ _ ht2u.le ht2v.le hc1 (le_of_eq ht1eq.symm)
      have hxhi2 : b.start.x + t2 * b.dx ≤ r.x1 :=
        affine_le_of_between _ _ _ ht2u.le ht2v.le hc2 (by rw [ht1eq]; exact hx.le)
      exact ⟨t2, ht2u, lt_trans ht2v ht1v,
        Or.inr (Or.inr (Or.inr ⟨ht2eq, ne_of_gt hdypos, hxlo2, hxhi2⟩))⟩
  · -- the stop endpoint is right of the rectangle: cross x = x1 going up
    have hxu : b.start.x + u * b.dx < r.x1 := lt_of_le_of_ne hc2 (hax1 h)
    have hx1' : r.x1 < b.start.x + 1 * b.dx := by rw [← hbx]; exact h
    obtain ⟨t1, ht1u, ht1v, ht1eq, hdpos⟩ := cross_up hu1 hxu hx1'
    rcases le_or_lt (b.start.y + t1 * b.dy) r.y1 with hyhi2 | hyhi2
    · rcases le_or_lt r.y0 (b.start.y + t1 * b.dy) with hylo2 | hylo2
      · exact ⟨t1, ht1u, ht1v, Or.inl ⟨ht1eq, ne_of_gt hdpos, hylo2, hyhi2⟩⟩
      · have hstopy : b.stop.y < r.y0 := by
          by_contra hcon
          push_neg at hcon
          rw [hby] at hcon
          have h2 := affine_ge_of_between b.start.y b.dy r.y0 ht1u.le ht1v.le hc3 hcon
          exact absurd h2 (not_le.mpr hylo2)
        have hyu : r.y0 < b.start.y + u * b.dy :=
          lt_of_le_of_ne hc3 (Ne.symm (hay0 hstopy))
        obtain ⟨t2, ht2u, ht2v, ht2eq, hdyneg⟩ := cross_down ht1u hyu hylo2
        have hxlo2 : r.x0 ≤ b.start.x + t2 * b.dx :=
          affine_ge_of_between _ _ _ ht2u.le ht2v.le hc1 (by rw [ht1eq]; exact hx.le)
        have hxhi2 : b.start.x + t2 * b.dx ≤ r.x1 :=
          affine_le_of_between _ _ _ ht2u.le ht2v.le hc2 (le_of_eq ht1eq)
        exact ⟨t2, ht2u, lt_trans ht2v ht1v,
          Or.inr (Or.inr (Or.inl ⟨ht2eq, ne_of_lt hdyneg, hxlo2, hxhi2⟩))⟩
    · have hstopy : r.y1 < b.stop.y := by
        by_contra hcon
        push_neg at hcon
        rw [hby] at hcon
        have h2 := affine_le_of_between b.start.y b.dy r.y1 ht1u.le ht1v.le hc4 hcon
        exact absurd h2 (not_le.mpr hyhi2)
      have hyu : b.start.y + u * b.dy < r.y1 := lt_of_le_of_ne hc4 (hay1 hstopy)
      obtain ⟨t2, ht2u, ht2v, ht2eq, hdypos⟩ := cross_up ht1u hyu hyhi2
      have hxlo2 : r.x0 ≤ b.start.x + t2 * b.dx :=
        affine_ge_of_between _ _ _ ht2u.le ht2v.le hc1 (by rw [ht1eq]; exact hx.le)
      have hxhi2 : b.start.x + t2 * b.dx ≤ r.x1 :=
        affine_le_of_between _ _ _ ht2u.le ht2v.le hc2 (le_of_eq ht1eq)
      exact ⟨t2, ht2u, lt_trans ht2v ht1v,
        Or.inr (Or.inr (Or.inr ⟨ht2eq, ne_of_gt hdypos, hxlo2, hxhi2⟩))⟩
  · -- the stop endpoint is below the rectangle: cross y = y0 going down
    have hyu : r.y0 < b.start.y + u * b.dy := lt_of_le_of_ne hc3 (Ne.symm (hay0 h))
    have hy1' : b.start.y + 1 * b.dy < r.y0 := by rw [← hby]; exact h
    obtain ⟨t1, ht1u, ht1v, ht1eq, hdyneg⟩ := cross_down hu1 hyu hy1'
    rcases le_or_lt (b.start.x + t1 * b.dx) r.x1 with hxhi2 | hxhi2
    · rcases le_or_lt r.x0 (b.start.x + t1 * b.dx) with hxlo2 | hxlo2
      · exact ⟨t1, ht1u, ht1v,
          Or.inr (Or.inr (Or.inl ⟨ht1eq, ne_of_lt hdyneg, hxlo2, hxhi2⟩))⟩
      · -- the y0-crossing is left of the span: cross x = x0 first
        have hstopx : b.stop.x < r.x0 := by
          by_contra hcon
          push_neg at hcon
          rw [hbx] at hcon
          have h2 := affine_ge_of_between b.start.x b.dx r.x0 ht1u.le ht1v.le hc1 hcon
          exact absurd h2 (not_le.mpr hxlo2)
        have hxu : r.x0 < b.start.x + u * b.dx :=
          lt_of_le_of_ne hc1 (Ne.symm (hax0 hstopx))
        obtain ⟨t2, ht2u, ht2v, ht2eq, hdxneg⟩ := cross_down ht1u hxu hxlo2
        have hylo2 : r.y0 ≤ b.start.y + t2 * b.dy :=
          affine_ge_of_between _ _ _ ht2u.le ht2v.le hc3 (le_of_eq ht1eq.symm)
        have hyhi2 : b.start.y + t2 * b.dy ≤ r.y1 :=
          affine_le_of_between _ _ _ ht2u.le ht2v.le hc4 (by rw [ht1eq]; exact hy.le)
        exact ⟨t2, ht2u, lt_trans ht2v ht1v,
          Or.inr (Or.inl ⟨ht2eq, ne_of_lt hdxneg, hylo2, hyhi2⟩)⟩
    · -- the y0-crossing is right of the span: cross x = x1 first
      have hstopx : r.x1 < b.stop.x := by
        by_contra hcon
        push_neg at hcon
        rw [hbx] at hcon
        have h2 := affine_le_of_between b.start.x b.dx r.x1 ht1u.le ht1v.le hc2 hcon
        exact absurd h2 (not_le.mpr hxhi2)
      have hxu : b.start.x + u * b.dx < r.x1 := lt_of_le_of_ne hc2 (hax1 hstopx)
      obtain ⟨t2, ht2u, ht2v, ht2eq, hdxpos⟩ := cross_up ht1u hxu hxhi2
      have hylo2 : r.y0 ≤ b.start.y + t2 * b.dy :=
        affine_ge_of_between _ _ _ ht2u.le ht2v.le hc3 (le_of_eq ht1eq.symm)
      have hyhi2 : b.start.y + t2 * b.dy ≤ r.y1 :=
        affine_le_of_between _ _ _ ht2u.le ht2v.le hc4 (by rw [ht1eq]; exact hy.le)
      exact ⟨t2, ht2u, lt_trans ht2v ht1v,
        Or.inl ⟨ht2eq, ne_of_gt hdxpos, hylo2, hyhi2⟩⟩
  · -- the stop endpoint is above the rectangle: cross y = y1 going up
    have hyu : b.start.y + u * b.dy < r.y1 := lt_of_le_of_ne hc4 (hay1 h)
    have hy1' : r.y1 < b.start.y + 1 * b.dy := by rw [← hby]; exact h
    obtain ⟨t1, ht1u, ht1v, ht1eq, hdypos⟩ := cross_up hu1 hyu hy1'
    rcases le_or_lt (b.start.x + t1 * b.dx) r.x1 with hxhi2 | hxhi2
    · rcases le_or_lt r.x0 (b.start.x + t1 * b.dx) with hxlo2 | hxlo2
      · exact ⟨t1, ht1u, ht1v,
          Or.inr (Or.inr (Or.inr ⟨ht1eq, ne_of_gt hdypos, hxlo2, hxhi2⟩))⟩
      · have hstopx : b.stop.x < r.x0 := by
          by_contra hcon
          push_neg at hcon
          rw [hbx] at hcon
          have h2 := affine_ge_of_between b.start.x b.dx r.x0 ht1u.le ht1v.le hc1 hcon
          exact absurd h2 (not_le.mpr hxlo2)
        have hxu : r.x0 < b.start.x + u * b.dx :=
          lt_of_le_of_ne hc1 (Ne.symm (hax0 hstopx))
        obtain ⟨t2, ht2u, ht2v, ht2eq, hdxneg⟩ := cross_down ht1u hxu hxlo2
        have hylo2 : r.y0 ≤ b.start.y + t2 * b.dy :=
          affine_ge_of_between _ _ _ ht2u.le ht2v.le hc3 (by rw [ht1eq]; exact hy.le)
        have hyhi2 : b.start.y + t2 * b.dy ≤ r.y1 :=
          affine_le_of_between _ _ _ ht2u.le ht2v.le hc4 (le_of_eq ht1eq)
        exact ⟨t2, ht2u, lt_trans ht2v ht1v,
          Or.inr (Or.inl ⟨ht2eq, ne_of_lt hdxneg, hylo2, hyhi2⟩)⟩
    · -- the y1-crossing is right of the span: cross x = x1 first
      have hstopx : r.x1 < b.stop.x := by
        by_contra hcon
        push_neg at hcon
        rw [hbx] at hcon
        have h2 := affine_le_of_between b.start.x b.dx r.x1 ht1u.le ht1v.le hc2 hcon
        exact absurd h2 (not_le.mpr hxhi2)
      have hxu : b.start.x + u * b.dx < r.x1 := lt_of_le_of_ne hc2 (hax1 hstopx)
      obtain ⟨t2, ht2u, ht2v, ht2eq, hdxpos⟩ := cross_up ht1u hxu hxhi2
      have hylo2 : r.y0 ≤ b.start.y + t2 * b.dy :=
        affine_ge_of_between _ _ _ ht2u.le ht2v.le hc3 (by rw [ht1eq]; exact hy.le)
      have hyhi2 : b.start.y + t2 * b.dy ≤ r.y1 :=
        affine_le_of_between _ _ _ ht2u.le ht2v.le hc4 (le_of_eq ht1eq)
      exact ⟨t2, ht2u, lt_trans ht2v ht1v,
        Or.inl ⟨ht2eq, ne_of_gt hdxpos, hylo2, hyhi2⟩⟩

end Klippa

namespace Klippa

/-- Mirror of `exitDetect` for the start endpoint, obtained by reversing
the segment. -/
theorem entryDetect (r : Rect) (b : LineQ)
    (hx : r.x0 < r.x1) (hy : r.y0 < r.y1)
    (u : ℚ) (hu0 : 0 < u) (hu1 : u < 1)
    (hcont : containsCoord r (pointAt b u))
    (hnot : ¬containsCoord r b.start)
    (hax0 : b.start.x < r.x0 → (pointAt b u).x ≠ r.x0)
    (hax1 : r.x1 < b.start.x → (pointAt b u).x ≠ r.x1)
    (hay0 : b.start.y < r.y0 → (pointAt b u).y ≠ r.y0)
    (hay1 : r.y1 < b.start.y → (pointAt b u).y ≠ r.y1) :
    ∃ t, 0 < t ∧ t < u ∧ crossData r b t := by
  have he : (1 : ℚ) - (1 - u) = u := by ring
  have hrev := exitDetect r b.reverse hx hy (1 - u) (by linarith) (by linarith)
    (by rw [pointAt_reverse, he]; exact hcont)
    hnot
    (fun h => by rw [pointAt_reverse, he]; exact hax0 h)
    (fun h => by rw [pointAt_reverse, he]; exact hax1 h)
    (fun h => by rw [pointAt_reverse, he]; exact hay0 h)
    (fun h => by rw [pointAt_reverse, he]; exact hay1 h)
  obtain ⟨t', h1, h2, hcd⟩ := hrev
  exact ⟨1 - t', by linarith, by linarith, crossData_reverse r b t' hcd⟩

/-- Package an exit crossing into a second, distinct intersection point. -/
theorem second_of_exit (r : Rect) (b : LineQ)
    (hx : r.x0 < r.x1) (hy : r.y0 < r.y1)
    (t : ℚ) (ht0 : 0 < t) (ht1 : t < 1)
    (hcont : containsCoord r (pointAt b t))
    (hnot : ¬containsCoord r b.stop)
    (hax0 : b.stop.x < r.x0 → (pointAt b t).x ≠ r.x0)
    (hax1 : r.x1 < b.stop.x → (pointAt b t).x ≠ r.x1)
    (hay0 : b.stop.y < r.y0 → (pointAt b t).y ≠ r.y0)
    (hay1 : r.y1 < b.stop.y → (pointAt b t).y ≠ r.y1)
    (hdir : b.dx ≠ 0 ∨ b.dy ≠ 0) :
    ∃ q, q ∈ isectPoints r b ∧ q ≠ pointAt b t := by
  obtain ⟨t', h1, h2, hcd⟩ :=
    exitDetect r b hx hy t ht0 ht1 hcont hnot hax0 hax1 hay0 hay1
  obtain ⟨s', hs', heq⟩ :=
    detect_of_crossData r b t' (ne_of_lt hx) (lt_trans ht0 h1) h2 hcd
  refine ⟨pointAt b t', mem_isectPoints.mpr ⟨s', hs', heq⟩, ?_⟩
  intro hq
  rcases hdir with hd | hd
  · have hcx := congrArg Coord.x hq
    simp only [pointAt, Coord.mk_x] at hcx
    have ht' : t' = t := mul_right_cancel₀ hd (by linarith)
    linarith
  · have hcy := congrArg Coord.y hq
    simp only [pointAt, Coord.mk_y] at hcy
    have ht' : t' = t := mul_right_cancel₀ hd (by linarith)
    linarith

/-- Package an entry crossing into a second, distinct intersection point. -/
theorem second_of_entry (r : Rect) (b : LineQ)
    (hx : r.x0 < r.x1) (hy : r.y0 < r.y1)
    (t : ℚ) (ht0 : 0 < t) (ht1 : t < 1)
    (hcont : containsCoord r (pointAt b t))
    (hnot : ¬containsCoord r b.start)
    (hax0 : b.start.x < r.x0 → (pointAt b t).x ≠ r.x0)
    (hax1 : r.x1 < b.start.x → (pointAt b t).x ≠ r.x1)
    (hay0 : b.start.y < r.y0 → (pointAt b t).y ≠ r.y0)
    (hay1 : r.y1 < b.start.y → (pointAt b t).y ≠ r.y1)
    (hdir : b.dx ≠ 0 ∨ b.dy ≠ 0) :
    ∃ q, q ∈ isectPoints r b ∧ q ≠ pointAt b t := by
  obtain ⟨t', h1, h2, hcd⟩ :=
    entryDetect r b hx hy t ht0 ht1 hcont hnot hax0 hax1 hay0 hay1
  obtain ⟨s', hs', heq⟩ :=
    detect_of_crossData r b t' (ne_of_lt hx) h1 (lt_trans h2 ht1) hcd
  refine ⟨pointAt b t', mem_isectPoints.mpr ⟨s', hs', heq⟩, ?_⟩
  intro hq
  rcases hdir with hd | hd
  · have hcx := congrArg Coord.x hq
    simp only [pointAt, Coord.mk_x] at hcx
    have ht' : t' = t := mul_right_cancel₀ hd (by linarith)
    linarith
  · have hcy := congrArg Coord.y hq
    simp only [pointAt, Coord.mk_y] at hcy
    have ht' : t' = t := mul_right_cancel₀ hd (by linarith)
    linarith

end Klippa

namespace Klippa

/-- For a segment with both endpoints outside the rectangle, a non-corner
intersection point is never alone: a second, distinct intersection point
exists.  (A lone intersection point of a crossing segment is necessarily
a corner graze, which clip_segment rejects.) -/
theorem second_isect (r : Rect) (b : LineQ)
    (hx : r.x0 < r.x1) (hy : r.y0 < r.y1)
    (hs : ¬containsCoord r b.start) (hstop : ¬containsCoord r b.stop)
    (p : Coord) (hp : p ∈ isectPoints r b) (hcorner : ¬isCorner r p) :
    ∃ q, q ∈ isectPoints r b ∧ q ≠ p := by
  rw [mem_isectPoints] at hp
  obtain ⟨side, hside, hint⟩ := hp
  simp only [isCorner, Rect.cornerPoints, List.mem_cons, List.not_mem_nil,
    or_false, not_or] at hcorner
  obtain ⟨hnc0, hnc1, hnc2, hnc3⟩ := hcorner
  simp only [Rect.linesL, List.mem_cons, List.not_mem_nil, or_false] at hside
  obtain ⟨px, py⟩ := p
  simp only [Coord.mk.injEq, not_and] at hnc0 hnc1 hnc2 hnc3
  rcases hside with h | h | h | h
  · -- p produced by the bottom side (y = y0)
    subst h
    obtain ⟨hp0, ⟨hplo, hphi⟩, hdisj⟩ := sound_line0 r b ⟨px, py⟩ (ne_of_lt hx) hint
    simp only [Coord.mk_x, Coord.mk_y] at hp0 hplo hphi
    rw [min_eq_left hx.le] at hplo
    rw [max_eq_right hx.le] at hphi
    have hpcont : containsCoord r ⟨px, py⟩ :=
      ⟨hplo, hphi, le_of_eq hp0.symm, by rw [hp0]; exact hy.le⟩
    rcases hdisj with hpb | ⟨t, ht0, ht1, hpt, hstr⟩
    · rw [hpb] at hpcont
      exact absurd hpcont hs
    · have hpx0 : px ≠ r.x0 := fun hh => (hnc0 hh) hp0
      have hpx1 : px ≠ r.x1 := fun hh => (hnc1 hh) hp0
      have hcont' : containsCoord r (pointAt b t) := hpt ▸ hpcont
      have hptx : (pointAt b t).x = px := by rw [← hpt]
      have hpty : (pointAt b t).y = py := by rw [← hpt]
      rcases hstr with ⟨hL1, hL2⟩ | ⟨hR1, hR2⟩
      · have hdir : b.dx ≠ 0 ∨ b.dy ≠ 0 := by
          right; simp only [LineQ.dy]; intro hh; linarith
        obtain ⟨q, hq1, hq2⟩ := second_of_exit r b hx hy t ht0 ht1 hcont' hstop
          (fun _ => by rw [hptx]; exact hpx0)
          (fun _ => by rw [hptx]; exact hpx1)
          (fun hh => absurd hh (lt_asymm hL2))
          (fun _ => by rw [hpty, hp0]; exact hy.ne)
          hdir
        exact ⟨q, hq1, by rw [← hpt] at hq2; exact hq2⟩
      · have hdir : b.dx ≠ 0 ∨ b.dy ≠ 0 := by
          right; simp only [LineQ.dy]; intro hh; linarith
        obtain ⟨q, hq1, hq2⟩ := second_of_entry r b hx hy t ht0 ht1 hcont' hs
          (fun _ => by rw [hptx]; exact hpx0)
          (fun _ => by rw [hptx]; exact hpx1)
          (fun hh => absurd hh (lt_asymm hR2))
          (fun _ => by rw [hpty, hp0]; exact hy.ne)
          hdir
        exact ⟨q, hq1, by rw [← hpt] at hq2; exact hq2⟩
  · -- p produced by the right side (x = x1)
    subst h
    obtain ⟨hp1, ⟨hplo, hphi⟩, hdisj⟩ := sound_line1 r b ⟨px, py⟩ hint
    simp only [Coord.mk_x, Coord.mk_y] at hp1 hplo hphi
    rw [min_eq_left hy.le] at hplo
    rw [max_eq_right hy.le] at hphi
    have hpcont : containsCoord r ⟨px, py⟩ :=
      ⟨by rw [hp1]; exact hx.le, le_of_eq hp1, hplo, hphi⟩
    rcases hdisj with hpb | ⟨t, ht0, ht1, hpt, hstr⟩
    · rw [hpb] at hpcont
      exact absurd hpcont hs
    · have hpy0 : py ≠ r.y0 := hnc1 hp1
      have hpy1 : py ≠ r.y1 := hnc2 hp1
      have hcont' : containsCoord r (pointAt b t) := hpt ▸ hpcont
      have hptx : (pointAt b t).x = px := by rw [← hpt]
      have hpty : (pointAt b t).y = py := by rw [← hpt]
      rcases hstr with ⟨hL1, hL2⟩ | ⟨hR1, hR2⟩
      · have hdir : b.dx ≠ 0 ∨ b.dy ≠ 0 := by
          left; simp only [LineQ.dx]; intro hh; linarith
        obtain ⟨q, hq1, hq2⟩ := second_of_entry r b hx hy t ht0 ht1 hcont' hs
          (fun _ => by rw [hptx, hp1]; exact hx.ne')
          (fun hh => absurd hh (lt_asymm hL1))
          (fun _ => by rw [hpty]; exact hpy0)
          (fun _ => by rw [hpty]; exact hpy1)
          hdir
        exact ⟨q, hq1, by rw [← hpt] at hq2; exact hq2⟩
      · have hdir : b.dx ≠ 0 ∨ b.dy ≠ 0 := by
          left; simp only [LineQ.dx]; intro hh; linarith
        obtain ⟨q, hq1, hq2⟩ := second_of_exit r b hx hy t ht0 ht1 hcont' hstop
          (fun _ => by rw [hptx, hp1]; exact hx.ne')
          (fun hh => absurd hh (lt_asymm hR1))
          (fun _ => by rw [hpty]; exact hpy0)
          (fun _ => by rw [hpty]; exact hpy1)
          hdir
        exact ⟨q, hq1, by rw [← hpt] at hq2; exact hq2⟩
  · -- p produced by the top side (y = y1)
    subst h
    obtain ⟨hp2, ⟨hplo, hphi⟩, hdisj⟩ := sound_line2 r b ⟨px, py⟩ (ne_of_lt hx) hint
    simp only [Coord.mk_x, Coord.mk_y] at hp2 hplo hphi
    rw [min_eq_left hx.le] at hplo
    rw [max_eq_right hx.le] at hphi
    have hpcont : containsCoord r ⟨px, py⟩ :=
      ⟨hplo, hphi, by rw [hp2]; exact hy.le, le_of_eq hp2⟩
    rcases hdisj with hpb | ⟨t, ht0, ht1, hpt, hstr⟩
    · rw [hpb] at hpcont
      exact absurd hpcont hs
    · have hpx1 : px ≠ r.x1 := fun hh => absurd hp2 (hnc2 hh)
      have hpx0 : px ≠ r.x0 := fun hh => absurd hp2 (hnc3 hh)
      have hcont' : containsCoord r (pointAt b t) := hpt ▸ hpcont
      have hptx : (pointAt b t).x = px := by rw [← hpt]
      have hpty : (pointAt b t).y = py := by rw [← hpt]
      rcases hstr with ⟨hL1, hL2⟩ | ⟨hR1, hR2⟩
      · have hdir : b.dx ≠ 0 ∨ b.dy ≠ 0 := by
          right; simp only [LineQ.dy]; intro hh; linarith
        obtain ⟨q, hq1, hq2⟩ := second_of_entry r b hx hy t ht0 ht1 hcont' hs
          (fun _ => by rw [hptx]; exact hpx0)
          (fun _ => by rw [hptx]; exact hpx1)
          (fun _ => by rw [hpty, hp2]; exact hy.ne')
          (fun hh => absurd hh (lt_asymm hL1))
          hdir
        exact ⟨q, hq1, by rw [← hpt] at hq2; exact hq2⟩
      · have hdir : b.dx ≠ 0 ∨ b.dy ≠ 0 := by
          right; simp only [LineQ.dy]; intro hh; linarith
        obtain ⟨q, hq1, hq2⟩ := second_of_exit r b hx hy t ht0 ht1 hcont' hstop
          (fun _ => by rw [hptx]; exact hpx0)
          (fun _ => by rw [hptx]; exact hpx1)
          (fun _ => by rw [hpty, hp2]; exact hy.ne')
          (fun hh => absurd hh (lt_asymm hR1))
          hdir
        exact ⟨q, hq1, by rw [← hpt] at hq2; exact hq2⟩
  · -- p produced by the left side (x = x0)
    subst h
    obtain ⟨hp3, ⟨hplo, hphi⟩, hdisj⟩ := sound_line3 r b ⟨px, py⟩ hint
    simp only [Coord.mk_x, Coord.mk_y] at hp3 hplo hphi
    rw [min_eq_left hy.le] at hplo
    rw [max_eq_right hy.le] at hphi
    have hpcont : containsCoord r ⟨px, py⟩ :=
      ⟨le_of_eq hp3.symm, by rw [hp3]; exact hx.le, hplo, hphi⟩
    rcases hdisj with hpb | ⟨t, ht0, ht1, hpt, hstr⟩
    · rw [hpb] at hpcont
      exact absurd hpcont hs
    · have hpy0 : py ≠ r.y0 := hnc0 hp3
      have hpy1 : py ≠ r.y1 := hnc3 hp3
      have hcont' : containsCoord r (pointAt b t) := hpt ▸ hpcont
      have hptx : (pointAt b t).x = px := by rw [← hpt]
      have hpty : (pointAt b t).y = py := by rw [← hpt]
      rcases hstr with ⟨hL1, hL2⟩ | ⟨hR1, hR2⟩
      · have hdir : b.dx ≠ 0 ∨ b.dy ≠ 0 := by
          left; simp only [LineQ.dx]; intro hh; linarith
        obtain ⟨q, hq1, hq2⟩ := second_of_exit r b hx hy t ht0 ht1 hcont' hstop
          (fun hh => absurd hh (lt_asymm hL2))
          (fun _ => by rw [hptx, hp3]; exact hx.ne)
          (fun _ => by rw [hpty]; exact hpy0)
          (fun _ => by rw [hpty]; exact hpy1)
          hdir
        exact ⟨q, hq1, by rw [← hpt] at hq2; exact hq2⟩
      · have hdir : b.dx ≠ 0 ∨ b.dy ≠ 0 := by
          left; simp only [LineQ.dx]; intro hh; linarith
        obtain ⟨q, hq1, hq2⟩ := second_of_entry r b hx hy t ht0 ht1 hcont' hs
          (fun hh => absurd hh (lt_asymm hR2))
          (fun _ => by rw [hptx, hp3]; exact hx.ne)
          (fun _ => by rw [hpty]; exact hpy0)
          (fun _ => by rw [hpty]; exact hpy1)
          hdir
        exact ⟨q, hq1, by rw [← hpt] at hq2; exact hq2⟩

end Klippa

namespace Klippa

/-- Every intersection point of a segment with a rectangle side lies within
the rectangle (the sides of a nondegenerate rectangle lie on its boundary). -/
theorem isect_contained (r : Rect) (seg : LineQ)
    (hx : r.x0 < r.x1) (hy : r.y0 < r.y1)
    (p : Coord) (hp : p ∈ isectPoints r seg) : containsCoord r p := by
  rw [mem_isectPoints] at hp
  obtain ⟨side, hside, hint⟩ := hp
  simp only [Rect.linesL, List.mem_cons, List.not_mem_nil, or_false] at hside
  rcases hside with h | h | h | h <;> subst h
  · obtain ⟨h1, ⟨h2, h3⟩, _⟩ := sound_line0 r seg p (ne_of_lt hx) hint
    rw [min_eq_left hx.le] at h2
    rw [max_eq_right hx.le] at h3
    exact ⟨h2, h3, le_of_eq h1.symm, by rw [h1]; exact hy.le⟩
  · obtain ⟨h1, ⟨h2, h3⟩, _⟩ := sound_line1 r seg p hint
    rw [min_eq_left hy.le] at h2
    rw [max_eq_right hy.le] at h3
    exact ⟨by rw [h1]; exact hx.le, le_of_eq h1, h2, h3⟩
  · obtain ⟨h1, ⟨h2, h3⟩, _⟩ := sound_line2 r seg p (ne_of_lt hx) hint
    rw [min_eq_left hx.le] at h2
    rw [max_eq_right hx.le] at h3
    exact ⟨h2, h3, by rw [h1]; exact hy.le, le_of_eq h1⟩
  · obtain ⟨h1, ⟨h2, h3⟩, _⟩ := sound_line3 r seg p hint
    rw [min_eq_left hy.le] at h2
    rw [max_eq_right hy.le] at h3
    exact ⟨le_of_eq h1.symm, by rw [h1]; exact hx.le, h2, h3⟩

/-! ### Shape lemmas for clip_segment -/

theorem clipSegment_isects_nil (r : Rect) (seg : LineQ)
    (hcs : ¬containsSegment r seg) (hl : isectPoints r seg = []) :
    clipSegment r seg = none := by
  rw [clipSegment, if_neg hcs, hl]

theorem clipSegment_isects_one (r : Rect) (seg : LineQ) (p1 : Coord)
    (hcs : ¬containsSegment r seg) (hl : isectPoints r seg = [p1]) :
    clipSegment r seg =
      if isCrossing r seg ∧ isCorner r p1 then none
      else if containsCoord r seg.start then some ⟨seg.start, p1⟩
      else some ⟨p1, seg.stop⟩ := by
  rw [clipSegment, if_neg hcs, hl]

theorem clipSegment_isects_two (r : Rect) (seg : LineQ) (p1 p2 : Coord)
    (rest : List Coord)
    (hcs : ¬containsSegment r seg) (hl : isectPoints r seg = p1 :: p2 :: rest) :
    clipSegment r seg =
      if manhattanDist seg.start p1 ≤ manhattanDist seg.start p2 then
        some ⟨p1, p2⟩
      else some ⟨p2, p1⟩ := by
  rw [clipSegment, if_neg hcs, hl]

/-- C8: a clipped segment lies within the rectangle bounds. -/
theorem clipSegment_result_in_bounds (r : Rect) (seg s : LineQ)
    (hx : r.x0 < r.x1) (hy : r.y0 < r.y1)
    (h : clipSegment r seg = some s) :
    containsCoord r s.start ∧ containsCoord r s.stop := by
  by_cases hcs : containsSegment r seg
  · rw [clipSegment, if_pos hcs] at h
    injection h with h
    subst h
    exact hcs
  · rcases hlist : isectPoints r seg with _ | ⟨p1, _ | ⟨p2, rest⟩⟩
    · rw [clipSegment_isects_nil r seg hcs hlist] at h
      exact Option.noConfusion h
    · rw [clipSegment_isects_one r seg p1 hcs hlist] at h
      have hm1 : p1 ∈ isectPoints r seg := by
        rw [hlist]; exact List.mem_singleton_self p1
      have hc1 := isect_contained r seg hx hy p1 hm1
      split_ifs at h with hcc hstart
      · injection h with h
        subst h
        exact ⟨hstart, hc1⟩
      · injection h with h
        subst h
        refine ⟨hc1, ?_⟩
        by_contra hnstop
        have hcorner : ¬isCorner r p1 := fun hcor => hcc ⟨⟨hstart, hnstop⟩, hcor⟩
        obtain ⟨q, hq1, hq2⟩ :=
          second_isect r seg hx hy hstart hnstop p1 hm1 hcorner
        rw [hlist] at hq1
        exact hq2 (List.mem_singleton.mp hq1)
    · rw [clipSegment_isects_two r seg p1 p2 rest hcs hlist] at h
      have hm1 : p1 ∈ isectPoints r seg := by rw [hlist]; simp
      have hm2 : p2 ∈ isectPoints r seg := by rw [hlist]; simp
      have hc1 := isect_contained r seg hx hy p1 hm1
      have hc2 := isect_contained r seg hx hy p2 hm2
      split_ifs at h
      · injection h with h
        subst h
        exact ⟨hc1, hc2⟩
      · injection h with h
        subst h
        exact ⟨hc2, hc1⟩

end Klippa

namespace Klippa

@[simp] theorem Coord.yx_x (c : Coord) : c.yx.x = c.y := rfl

@[simp] theorem Coord.yx_y (c : Coord) : c.yx.y = c.x := rfl

/-- C7: both endpoints inside (inclusive) - the segment is returned
unchanged. -/
theorem clipSegment_inside_identity (r : Rect) (seg : LineQ)
    (h1 : containsCoord r seg.start) (h2 : containsCoord r seg.stop) :
    clipSegment r seg = some seg := by
  rw [clipSegment, if_pos ⟨h1, h2⟩]

theorem clipSegment_inside_identity_witness :
    clipSegment testRect ⟨⟨1, 1⟩, ⟨2, 3⟩⟩ = some ⟨⟨1, 1⟩, ⟨2, 3⟩⟩ :=
  clipSegment_inside_identity testRect ⟨⟨1, 1⟩, ⟨2, 3⟩⟩ (by decide) (by decide)

/-- C5: a crossing segment whose single deduplicated intersection point is
a rectangle corner clips to none. -/
theorem clipSegment_corner_graze_none (r : Rect) (seg : LineQ) (p : Coord)
    (h1 : ¬containsCoord r seg.start) (h2 : ¬containsCoord r seg.stop)
    (hl : isectPoints r seg = [p]) (hc : isCorner r p) :
    clipSegment r seg = none := by
  have hcs : ¬containsSegment r seg := fun hh => h1 hh.1
  rw [clipSegment_isects_one r seg p hcs hl, if_pos ⟨⟨h1, h2⟩, hc⟩]

theorem clipSegment_corner_graze_none_witness :
    clipSegment testRect ⟨⟨-1, 1⟩, ⟨1, -1⟩⟩ = none :=
  clipSegment_corner_graze_none testRect ⟨⟨-1, 1⟩, ⟨1, -1⟩⟩ ⟨0, 0⟩
    (by decide) (by decide) (by decide) (by decide)

/-- C6 counterexample: B starts on the interior of the vertical segment A
and proceeds rightward; the predicate returns that very point, which is an
endpoint of B (its start) - not none as the claim requires. -/
theorem intersection_endpoint_claim_cex :
    intersection ⟨⟨0, -4⟩, ⟨0, 4⟩⟩ ⟨⟨0, 0⟩, ⟨1, 0⟩⟩ = some ⟨0, 0⟩ ∧
    (⟨0, 0⟩ : Coord) = (LineQ.mk ⟨0, 0⟩ ⟨1, 0⟩).start := by
  exact ⟨by decide, rfl⟩

/-- C6 amended: the guaranteed no-intersection case is the meeting point
coinciding with B's terminal endpoint - B then fails to reach strictly past
A's supporting line, so the distance guard rejects it.  (A meeting point at
B's start, or at an endpoint of A, can be reported.) -/
theorem intersection_none_of_stop_on_line (a b : LineQ)
    (h : (a.start.x = a.stop.x ∧ b.stop.x = a.start.x) ∨
         (¬(a.start.x = a.stop.x) ∧ a.start.y = a.stop.y ∧
           b.stop.y = a.start.y)) :
    intersection a b = none := by
  rcases h with ⟨hv, he⟩ | ⟨hnv, hh, he⟩
  · rw [intersection, if_pos hv]
    have habs : |b.dx| ≤ |a.start.x - b.start.x| := by
      have he2 : b.dx = a.start.x - b.start.x := by
        simp only [LineQ.dx]
        rw [he]
      rw [he2]
    simp only [intersectionV]
    split_ifs with hg hg2
    · rfl
    · rfl
    · exact absurd (Or.inr habs) hg
  · rw [intersection, if_neg hnv, if_pos hh]
    have habs : |b.swapAxes.dx| ≤
        |a.swapAxes.start.x - b.swapAxes.start.x| := by
      have he2 : b.swapAxes.dx =
          a.swapAxes.start.x - b.swapAxes.start.x := by
        simp only [LineQ.swapAxes, LineQ.dx, LineQ.mk_start, LineQ.mk_stop,
          Coord.yx_x]
        rw [he]
      rw [he2]
    simp only [intersectionV]
    split_ifs with hg hg2
    · rfl
    · rfl
    · exact absurd (Or.inr habs) hg

theorem intersection_none_of_stop_on_line_witness :
    intersection ⟨⟨0, 0⟩, ⟨4, 0⟩⟩ ⟨⟨4, 4⟩, ⟨4, 0⟩⟩ = none :=
  intersection_none_of_stop_on_line ⟨⟨0, 0⟩, ⟨4, 0⟩⟩ ⟨⟨4, 4⟩, ⟨4, 0⟩⟩
    (Or.inr ⟨by norm_num, rfl, rfl⟩)

/-! ### Helper lemmas for C10 -/

/-- Any reported intersection point differs from B's terminal endpoint,
provided B is a proper segment. -/
theorem intersection_some_ne_stop (a b : LineQ) (p : Coord)
    (h : intersection a b = some p) (hne : b.start ≠ b.stop) : p ≠ b.stop := by
  by_cases hv : a.start.x = a.stop.x
  · obtain ⟨hpx, _, hdisj⟩ := intersection_someV a b p hv h
    rcases hdisj with hpe | ⟨t, _, _, _, hstr⟩
    · rw [hpe]; exact hne
    · intro hpe
      rw [hpe] at hpx
      rcases hstr with ⟨_, h2⟩ | ⟨h2, _⟩
      · rw [hpx] at h2; exact lt_irrefl _ h2
      · rw [hpx] at h2; exact lt_irrefl _ h2
  · by_cases hh : a.start.y = a.stop.y
    · obtain ⟨hpy, _, hdisj⟩ := intersection_someH a b p hv hh h
      rcases hdisj with hpe | ⟨t, _, _, _, hstr⟩
      · rw [hpe]; exact hne
      · intro hpe
        rw [hpe] at hpy
        rcases hstr with ⟨_, h2⟩ | ⟨h2, _⟩
        · rw [hpy] at h2; exact lt_irrefl _ h2
        · rw [hpy] at h2; exact lt_irrefl _ h2
    · rw [intersection, if_neg hv, if_neg hh] at h
      exact Option.noConfusion h

/-- Any reported intersection point shares a coordinate with A's start. -/
theorem intersection_some_on_line (a b : LineQ) (p : Coord)
    (h : intersection a b = some p) : p.x = a.start.x ∨ p.y = a.start.y := by
  by_cases hv : a.start.x = a.stop.x
  · exact Or.inl (intersection_someV a b p hv h).1
  · by_cases hh : a.start.y = a.stop.y
    · exact Or.inr (intersection_someH a b p hv hh h).1
    · rw [intersection, if_neg hv, if_neg hh] at h
      exact Option.noConfusion h

end Klippa

namespace Klippa

/-- C10 counterexample: a segment starting on the rectangle's right edge
and leaving outward clips to a single-point segment. -/
theorem clipSegment_degenerate_cex :
    clipSegment testRect ⟨⟨4, 2⟩, ⟨6, 3⟩⟩ = some ⟨⟨4, 2⟩, ⟨4, 2⟩⟩ ∧
    (LineQ.mk ⟨4, 2⟩ ⟨4, 2⟩).start = (LineQ.mk ⟨4, 2⟩ ⟨4, 2⟩).stop :=
  ⟨by decide, rfl⟩

/-- C10 amended: for a proper segment whose start point is not on the
rectangle boundary, a clipped result is never degenerate. -/
theorem clipSegment_nondegenerate (r : Rect) (seg s : LineQ)
    (hne : seg.start ≠ seg.stop)
    (hnb : ¬onBoundary r seg.start)
    (h : clipSegment r seg = some s) :
    s.start ≠ s.stop := by
  by_cases hcs : containsSegment r seg
  · rw [clipSegment, if_pos hcs] at h
    injection h with h
    subst h
    exact hne
  · rcases hlist : isectPoints r seg with _ | ⟨p1, _ | ⟨p2, rest⟩⟩
    · rw [clipSegment_isects_nil r seg hcs hlist] at h
      exact Option.noConfusion h
    · rw [clipSegment_isects_one r seg p1 hcs hlist] at h
      have hm1 : p1 ∈ isectPoints r seg := by
        rw [hlist]; exact List.mem_singleton_self p1
      split_ifs at h with hcc hstart
      · injection h with h
        subst h
        simp only [LineQ.mk_start, LineQ.mk_stop]
        obtain ⟨ha1, ha2, ha3, ha4⟩ := hstart
        simp only [onBoundary, not_or] at hnb
        obtain ⟨hB0, hB1, hB2, hB3⟩ := hnb
        have hx0 : seg.start.x ≠ r.x0 := fun hh => hB3 ⟨hh, ha3, ha4⟩
        have hx1 : seg.start.x ≠ r.x1 := fun hh => hB1 ⟨hh, ha3, ha4⟩
        have hy0 : seg.start.y ≠ r.y0 := fun hh => hB0 ⟨hh, ha1, ha2⟩
        have hy1 : seg.start.y ≠ r.y1 := fun hh => hB2 ⟨hh, ha1, ha2⟩
        intro hps
        rw [mem_isectPoints] at hm1
        obtain ⟨side, hsmem, hint⟩ := hm1
        have honline := intersection_some_on_line side seg p1 hint
        rw [← hps] at honline
        simp only [Rect.linesL, List.mem_cons, List.not_mem_nil, or_false] at hsmem
        rcases hsmem with hq | hq | hq | hq <;> subst hq <;>
            rcases honline with hl | hl
        · exact hx0 hl
        · exact hy0 hl
        · exact hx1 hl
        · exact hy0 hl
        · exact hx1 hl
        · exact hy1 hl
        · exact hx0 hl
        · exact hy1 hl
      · injection h with h
        subst h
        simp only [LineQ.mk_start, LineQ.mk_stop]
        rw [mem_isectPoints] at hm1
        obtain ⟨side, _, hint⟩ := hm1
        exact intersection_some_ne_stop side seg p1 hint hne
    · rw [clipSegment_isects_two r seg p1 p2 rest hcs hlist] at h
      have hnd : (p1 :: p2 :: rest).Nodup := by
        rw [← hlist]
        exact dedupKeepFirst_nodup _
      have hne12 : p1 ≠ p2 := by
        have h2 := List.nodup_cons.mp hnd
        exact fun hh => h2.1 (hh ▸ List.mem_cons_self p2 rest)
      split_ifs at h
      · injection h with h
        subst h
        exact hne12
      · injection h with h
        subst h
        exact hne12.symm

theorem clipSegment_nondegenerate_witness :
    (LineQ.mk ⟨0, 2⟩ ⟨4, 2⟩).start ≠ (LineQ.mk ⟨0, 2⟩ ⟨4, 2⟩).stop :=
  clipSegment_nondegenerate testRect ⟨⟨-1, 2⟩, ⟨5, 2⟩⟩ ⟨⟨0, 2⟩, ⟨4, 2⟩⟩
    (by decide) (by decide) (by decide)

/-! ### C9: perimeter index -/

theorem perimeterIndex_boundaryPoint (r : Rect)
    (hx : r.x0 < r.x1) (hy : r.y0 < r.y1)
    (t : ℚ) (h0 : 0 ≤ t) (h4 : t < 4) :
    perimeterIndex r (boundaryPoint r t) = t := by
  have hdx : r.x1 - r.x0 ≠ 0 := ne_of_gt (sub_pos.mpr hx)
  have hdy : r.y1 - r.y0 ≠ 0 := ne_of_gt (sub_pos.mpr hy)
  rcases lt_or_ge t 1 with h1 | h1
  · rw [boundaryPoint, if_pos h1, perimeterIndex]
    simp only [Coord.mk_x, Coord.mk_y]
    rw [if_true]
    field_simp
  · rcases lt_or_ge t 2 with h2 | h2
    · rw [boundaryPoint, if_neg (not_lt.mpr h1), if_pos h2, perimeterIndex]
      simp only [Coord.mk_x, Coord.mk_y]
      by_cases ht1 : t = 1
      · subst ht1
        rw [if_pos (by ring)]
        field_simp
      · have hne0 : (t - 1) * (r.y1 - r.y0) ≠ 0 :=
          mul_ne_zero (sub_ne_zero.mpr ht1) hdy
        rw [if_neg (fun hh => hne0 (by linarith)), if_true]
        field_simp
        try ring
    · rcases lt_or_ge t 3 with h3 | h3
      · rw [boundaryPoint, if_neg (not_lt.mpr h1), if_neg (not_lt.mpr h2),
          if_pos h3, perimeterIndex]
        simp only [Coord.mk_x, Coord.mk_y]
        rw [if_neg hy.ne']
        by_cases ht2 : t = 2
        · subst ht2
          rw [if_pos (by ring)]
          field_simp
          norm_num
        · have hne0 : (t - 2) * (r.x1 - r.x0) ≠ 0 :=
            mul_ne_zero (sub_ne_zero.mpr ht2) hdx
          rw [if_neg (fun hh => hne0 (by linarith)), if_true]
          have hdx' : r.x0 - r.x1 ≠ 0 := fun hh => hdx (by linarith)
          field_simp
          try ring
      · rw [boundaryPoint, if_neg (not_lt.mpr h1), if_neg (not_lt.mpr h2),
          if_neg (not_lt.mpr h3), perimeterIndex]
        simp only [Coord.mk_x, Coord.mk_y]
        have hne4 : (4 - t) * (r.y1 - r.y0) ≠ 0 :=
          mul_ne_zero (fun hh => absurd (by linarith : t = 4) (ne_of_lt h4)) hdy
        rw [if_neg (fun hh => hne4 (by linarith)), if_neg hx.ne]
        by_cases ht3 : t = 3
        · subst ht3
          rw [if_pos (by ring)]
          have hdx' : r.x0 - r.x1 ≠ 0 := fun hh => hdx (by linarith)
          field_simp
          norm_num
        · have hne0 : (t - 3) * (r.y1 - r.y0) ≠ 0 :=
            mul_ne_zero (sub_ne_zero.mpr ht3) hdy
          rw [if_neg (fun hh => hne0 (by linarith)), if_true]
          have hdy' : r.y0 - r.y1 ≠ 0 := fun hh => hdy (by linarith)
          field_simp
          try ring

theorem perimeterIndex_onBoundary_range (r : Rect)
    (hx : r.x0 < r.x1) (hy : r.y0 < r.y1)
    (p : Coord) (hp : onBoundary r p) :
    0 ≤ perimeterIndex r p ∧ perimeterIndex r p < 4 := by
  have hdx : (0:ℚ) < r.x1 - r.x0 := sub_pos.mpr hx
  have hdy : (0:ℚ) < r.y1 - r.y0 := sub_pos.mpr hy
  rcases hp with ⟨h1, h2, h3⟩ | ⟨h1, h2, h3⟩ | ⟨h1, h2, h3⟩ | ⟨h1, h2, h3⟩
  · rw [perimeterIndex, if_pos h1]
    constructor
    · exact div_nonneg (by linarith) hdx.le
    · have hle : (p.x - r.x0) / (r.x1 - r.x0) ≤ 1 :=
        (div_le_one hdx).mpr (by linarith)
      linarith
  · rw [perimeterIndex]
    by_cases hb0 : p.y = r.y0
    · rw [if_pos hb0]
      have : (p.x - r.x0) / (r.x1 - r.x0) ≤ 1 :=
        (div_le_one hdx).mpr (by rw [h1])
      constructor
      · exact div_nonneg (by rw [h1]; linarith) hdx.le
      · linarith
    · rw [if_neg hb0, if_pos h1]
      have hge : (0:ℚ) ≤ (p.y - r.y0) / (r.y1 - r.y0) :=
        div_nonneg (by linarith) hdy.le
      have hle : (p.y - r.y0) / (r.y1 - r.y0) ≤ 1 :=
        (div_le_one hdy).mpr (by linarith)
      constructor
      · linarith
      · linarith
  · rw [perimeterIndex, if_neg (fun hh => hy.ne' (h1.symm.trans hh))]
    by_cases hb1 : p.x = r.x1
    · rw [if_pos hb1]
      have hle : (p.y - r.y0) / (r.y1 - r.y0) ≤ 1 :=
        (div_le_one hdy).mpr (by rw [h1])
      have hge : (0:ℚ) ≤ (p.y - r.y0) / (r.y1 - r.y0) :=
        div_nonneg (by rw [h1]; linarith) hdy.le
      constructor
      · linarith
      · linarith
    · rw [if_neg hb1, if_pos h1]
      have he1 : p.x - r.x1 = -(r.x1 - p.x) := by ring
      have he2 : r.x0 - r.x1 = -(r.x1 - r.x0) := by ring
      rw [he1, he2, neg_div_neg_eq]
      have hge : (0:ℚ) ≤ (r.x1 - p.x) / (r.x1 - r.x0) :=
        div_nonneg (by linarith) hdx.le
      have hle : (r.x1 - p.x) / (r.x1 - r.x0) ≤ 1 :=
        (div_le_one hdx).mpr (by linarith)
      constructor
      · linarith
      · linarith
  · rw [perimeterIndex]
    by_cases hb0 : p.y = r.y0
    · rw [if_pos hb0, h1, sub_self, zero_div]
      norm_num
    · rw [if_neg hb0, if_neg (fun hh => hx.ne (h1.symm.trans hh))]
      by_cases hb2 : p.y = r.y1
      · rw [if_pos hb2, h1]
        have hdx' : r.x0 - r.x1 ≠ 0 := fun hh => (ne_of_gt hdx) (by linarith)
        rw [div_self hdx']
        norm_num
      · rw [if_neg hb2, if_pos h1]
        have he1 : p.y - r.y1 = -(r.y1 - p.y) := by ring
        have he2 : r.y0 - r.y1 = -(r.y1 - r.y0) := by ring
        rw [he1, he2, neg_div_neg_eq]
        have hge : (0:ℚ) ≤ (r.y1 - p.y) / (r.y1 - r.y0) :=
          div_nonneg (by linarith) hdy.le
        have hpy0 : r.y0 < p.y := lt_of_le_of_ne h2 (Ne.symm hb0)
        have hlt : (r.y1 - p.y) / (r.y1 - r.y0) < 1 :=
          (div_lt_one hdy).mpr (by linarith)
        constructor
        · linarith
        · linarith

/-- C9: on the boundary of a proper rectangle the perimeter index lies in
[0, 4), and walking the boundary in traversal order from corner (x0, y0)
it is non-decreasing. -/
theorem perimeterIndex_range_and_mono (r : Rect)
    (hx : r.x0 < r.x1) (hy : r.y0 < r.y1) :
    (∀ p, onBoundary r p → 0 ≤ perimeterIndex r p ∧ perimeterIndex r p < 4) ∧
    (∀ t1 t2, 0 ≤ t1 → t1 ≤ t2 → t2 < 4 →
      perimeterIndex r (boundaryPoint r t1) ≤
        perimeterIndex r (boundaryPoint r t2)) := by
  constructor
  · exact fun p hp => perimeterIndex_onBoundary_range r hx hy p hp
  · intro t1 t2 ha hb hc
    rw [perimeterIndex_boundaryPoint r hx hy t1 ha (lt_of_le_of_lt hb hc),
      perimeterIndex_boundaryPoint r hx hy t2 (le_trans ha hb) hc]
    exact hb

theorem perimeterIndex_range_and_mono_witness :
    (0 ≤ perimeterIndex testRect ⟨3, 0⟩ ∧ perimeterIndex testRect ⟨3, 0⟩ < 4) ∧
    perimeterIndex testRect (boundaryPoint testRect (1/2)) ≤
      perimeterIndex testRect (boundaryPoint testRect 3) := by
  have H := perimeterIndex_range_and_mono testRect (by norm_num [testRect])
    (by norm_num [testRect])
  exact ⟨H.1 ⟨3, 0⟩ (by decide), H.2 (1/2) 3 (by norm_num) (by norm_num) (by norm_num)⟩

end Klippa

namespace Klippa

/-! ### Queue invariants for clip_polygon_ring (C1) -/

theorem mem_insertStable {α : Type} (le : α → α → Bool) (x z : α) (l : List α)
    (h : x ∈ insertStable le z l) : x = z ∨ x ∈ l := by
  induction l with
  | nil =>
    rw [insertStable] at h
    exact Or.inl (List.mem_singleton.mp h)
  | cons y ys ih =>
    rw [insertStable] at h
    split at h
    · rcases List.mem_cons.mp h with rfl | h2
      · exact Or.inl rfl
      · exact Or.inr h2
    · rcases List.mem_cons.mp h with rfl | h2
      · exact Or.inr (List.mem_cons_self _ _)
      · rcases ih h2 with h3 | h3
        · exact Or.inl h3
        · exact Or.inr (List.mem_cons_of_mem _ h3)

theorem mem_sortStable {α : Type} (le : α → α → Bool) (x : α) (l : List α)
    (h : x ∈ sortStable le l) : x ∈ l := by
  induction l with
  | nil =>
    rw [sortStable] at h
    exact h
  | cons y ys ih =>
    rw [sortStable] at h
    rcases mem_insertStable le x y _ h with rfl | h2
    · exact List.mem_cons_self _ _
    · exact List.mem_cons_of_mem _ (ih h2)

theorem groupStep_ne_nil (acc : List (List LineQ)) (seg : LineQ)
    (hacc : ∀ gs ∈ acc, gs ≠ []) :
    ∀ gs ∈ groupStep acc seg, gs ≠ [] := by
  intro gs hgs
  rw [groupStep] at hgs
  split at hgs
  · split at hgs
    · split at hgs
      · rcases List.mem_append.mp hgs with h1 | h2
        · exact hacc gs ((List.dropLast_sublist acc).subset h1)
        · rcases List.mem_singleton.mp h2 with rfl
          exact List.append_ne_nil_of_right_ne_nil _ (by simp)
      · rcases List.mem_append.mp hgs with h1 | h2
        · exact hacc gs h1
        · rcases List.mem_singleton.mp h2 with rfl
          simp
    · exact hacc gs hgs
  · rcases List.mem_singleton.mp hgs with rfl
    simp

theorem foldl_groupStep_ne_nil (segs : List LineQ) :
    ∀ (acc : List (List LineQ)), (∀ gs ∈ acc, gs ≠ []) →
      ∀ gs ∈ segs.foldl groupStep acc, gs ≠ [] := by
  induction segs with
  | nil =>
    intro acc hacc
    simpa using hacc
  | cons s ss ih =>
    intro acc hacc
    rw [List.foldl_cons]
    exact ih (groupStep acc s) (groupStep_ne_nil acc s hacc)

theorem clipSegments_ne_nil (r : Rect) (segments : List LineQ) :
    ∀ gs ∈ clipSegments r segments, gs ≠ [] := by
  intro gs hgs
  simp only [clipSegments] at hgs
  split at hgs
  · exact absurd hgs (List.not_mem_nil gs)
  · exact foldl_groupStep_ne_nil _ []
      (fun x hx => absurd hx (List.not_mem_nil x)) gs hgs

theorem segmentsToLinestring_ne_nil (segments : List LineQ)
    (h : segments ≠ []) : segmentsToLinestring segments ≠ [] := by
  rw [segmentsToLinestring]
  cases hl : segments.getLast? with
  | none => exact absurd (List.getLast?_eq_none_iff.mp hl) h
  | some last => simp

theorem connectLoop_succ_some (r : Rect) (fuel : Nat)
    (queue : List (ℚ × List Coord)) (pa : ℚ) (a : List Coord)
    (hlast : queue.getLast? = some (pa, a)) :
    connectLoop r (fuel + 1) queue =
      if a.head? = a.getLast? then a :: connectLoop r fuel queue.dropLast
      else
        match findRevEntry
            (fun e => isIndexCloser (perimeterIndex r (a.getLastD default)) e.1 pa)
            queue.dropLast with
        | some (j, (pb, b)) =>
          connectLoop r fuel (queue.dropLast.eraseIdx j ++
            [(pa, a ++ cornerNodesBetween r
                (perimeterIndex r (a.getLastD default)) pb ++ b)])
        | none =>
          connectLoop r fuel (queue.dropLast ++
            [(pa, a ++ cornerNodesBetween r
                (perimeterIndex r (a.getLastD default)) pa ++ [a.headD default])]) := by
  rw [connectLoop, hlast]

theorem connectLoop_closed (r : Rect) :
    ∀ (fuel : Nat) (queue : List (ℚ × List Coord)),
      (∀ e ∈ queue, e.2 ≠ []) →
      ∀ ls ∈ connectLoop r fuel queue, ls ≠ [] ∧ ls.head? = ls.getLast? := by
  intro fuel
  induction fuel with
  | zero =>
    intro queue _ ls hls
    simp [connectLoop] at hls
  | succ fuel ih =>
    intro queue hq ls hls
    rcases hlast : queue.getLast? with _ | ⟨pa, a⟩
    · rw [connectLoop, hlast] at hls
      exact absurd hls (List.not_mem_nil ls)
    · have ha : a ≠ [] := hq (pa, a) (List.mem_of_getLast?_eq_some hlast)
      have hq' : ∀ e ∈ queue.dropLast, e.2 ≠ [] :=
        fun e he => hq e ((List.dropLast_sublist queue).subset he)
      rw [connectLoop_succ_some r fuel queue pa a hlast] at hls
      by_cases hc : a.head? = a.getLast?
      · rw [if_pos hc] at hls
        rcases List.mem_cons.mp hls with rfl | hmem
        · exact ⟨ha, hc⟩
        · exact ih queue.dropLast hq' ls hmem
      · rw [if_neg hc] at hls
        cases hfind : findRevEntry
            (fun e => isIndexCloser (perimeterIndex r (a.getLastD default)) e.1 pa)
            queue.dropLast with
        | some je =>
          obtain ⟨j, pb, b⟩ := je
          rw [hfind] at hls
          refine ih _ ?_ ls hls
          intro e he
          rcases List.mem_append.mp he with h1 | h2
          · exact hq' e (List.mem_of_mem_eraseIdx h1)
          · rcases List.mem_singleton.mp h2 with rfl
            exact List.append_ne_nil_of_left_ne_nil
              (List.append_ne_nil_of_left_ne_nil ha _) _
        | none =>
          rw [hfind] at hls
          refine ih _ ?_ ls hls
          intro e he
          rcases List.mem_append.mp he with h1 | h2
          · exact hq' e h1
          · rcases List.mem_singleton.mp h2 with rfl
            exact List.append_ne_nil_of_left_ne_nil
              (List.append_ne_nil_of_left_ne_nil ha _) _

/-- C1 counterexample: the ring (3,0)→(1,0)→(1,-2)→(3,-2)→(3,0) (one edge
on the rectangle's bottom side, the rest outside) makes clip_polygon_ring
emit a closed ring with only 2 distinct coordinates, not ≥ 3. -/
theorem clipPolygonRing_two_distinct_cex :
    clipPolygonRing testRect [⟨3, 0⟩, ⟨1, 0⟩, ⟨1, -2⟩, ⟨3, -2⟩, ⟨3, 0⟩] =
      [[⟨3, 0⟩, ⟨1, 0⟩, ⟨3, 0⟩]] ∧
    countDistinct [⟨3, 0⟩, ⟨1, 0⟩, ⟨3, 0⟩] = 2 := by
  constructor
  · decide
  · decide

/-- C1 amended: every ring emitted by clip_polygon_ring is nonempty and
closed (its first coordinate equals its last); the ≥ 3 distinct
coordinates part of the claim is refuted by the counterexample. -/
theorem clipPolygonRing_rings_closed (r : Rect) (g : List Coord)
    (ls : List Coord) (h : ls ∈ clipPolygonRing r g) :
    ls ≠ [] ∧ ls.head? = ls.getLast? := by
  simp only [clipPolygonRing] at h
  refine connectLoop_closed r _ _ ?_ ls h
  intro e he
  have he' := mem_sortStable _ _ _ he
  obtain ⟨ls', hls', rfl⟩ := List.mem_map.mp he'
  obtain ⟨gs, hgs, rfl⟩ := List.mem_map.mp hls'
  exact segmentsToLinestring_ne_nil _ (clipSegments_ne_nil r _ gs hgs)

theorem clipPolygonRing_rings_closed_witness :
    ([⟨1, 1⟩, ⟨3, 1⟩, ⟨3, 3⟩, ⟨1, 3⟩, ⟨1, 1⟩] : List Coord) ≠ [] ∧
    ([⟨1, 1⟩, ⟨3, 1⟩, ⟨3, 3⟩, ⟨1, 3⟩, ⟨1, 1⟩] : List Coord).head? =
      ([⟨1, 1⟩, ⟨3, 1⟩, ⟨3, 3⟩, ⟨1, 3⟩, ⟨1, 1⟩] : List Coord).getLast? :=
  clipPolygonRing_rings_closed testRect
    [⟨1, 1⟩, ⟨3, 1⟩, ⟨3, 3⟩, ⟨1, 3⟩, ⟨1, 1⟩]
    [⟨1, 1⟩, ⟨3, 1⟩, ⟨3, 3⟩, ⟨1, 3⟩, ⟨1, 1⟩] (by decide)

/-- C2: when clipping the ring's edges yields no fragments the queue
starts empty and clip_polygon_ring returns no rings at all; the code has
no containment fallback producing the rectangle boundary. -/
theorem clipPolygonRing_no_fragments (r : Rect) (g : List Coord)
    (h : clipSegments r (linesOf g) = []) : clipPolygonRing r g = [] := by
  simp only [clipPolygonRing, h]
  rfl

theorem clipPolygonRing_no_fragments_witness :
    clipPolygonRing testRect [⟨-1, -1⟩, ⟨-1, 5⟩, ⟨5, 5⟩, ⟨5, -1⟩, ⟨-1, -1⟩] = [] :=
  clipPolygonRing_no_fragments testRect
    [⟨-1, -1⟩, ⟨-1, 5⟩, ⟨5, 5⟩, ⟨5, -1⟩, ⟨-1, -1⟩] (by decide)

/-- C3: clip_polygon attaches no interior rings to any output polygon
(the hole handling is commented out behind a TODO), so a polygon whose
hole lies fully inside the rectangle still yields interior-ring count 0,
not 1. -/
theorem clipPolygon_interiors_dropped (r : Rect) (g : PolygonQ)
    (p : PolygonQ) (hp : p ∈ clipPolygon r g) : p.interiors = [] := by
  simp only [clipPolygon] at hp
  obtain ⟨ls, _, rfl⟩ := List.mem_map.mp hp
  rfl

theorem clipPolygon_interiors_dropped_witness :
    (PolygonQ.mk [⟨1, 1⟩, ⟨3, 1⟩, ⟨3, 3⟩, ⟨1, 3⟩, ⟨1, 1⟩] []).interiors = [] :=
  clipPolygon_interiors_dropped testRect
    ⟨[⟨1, 1⟩, ⟨3, 1⟩, ⟨3, 3⟩, ⟨1, 3⟩, ⟨1, 1⟩],
      [[⟨(3:ℚ)/2, (3:ℚ)/2⟩, ⟨(5:ℚ)/2, (3:ℚ)/2⟩, ⟨(5:ℚ)/2, (5:ℚ)/2⟩,
        ⟨(3:ℚ)/2, (3:ℚ)/2⟩]]⟩
    (PolygonQ.mk [⟨1, 1⟩, ⟨3, 1⟩, ⟨3, 3⟩, ⟨1, 3⟩, ⟨1, 1⟩] []) (by decide)

/-- C4 counterexample: a LineString entirely outside the rectangle yields
Some(MultiLineString([])) — an empty container, not None. -/
theorem clip_outside_linestring_cex :
    clip testRect (.lineString [⟨10, 10⟩, ⟨11, 11⟩]) =
      some (.multiLineString []) := by
  decide

/-- C4 amended: the None-on-empty behaviour holds for Point, Line,
Polygon and MultiPolygon inputs (the claim's MultiPolygon part included),
but not for LineString inputs, which always produce Some — see the
counterexample. -/
theorem clip_empty_result_none (r : Rect) :
    (∀ g : PolygonQ, clipPolygon r g = [] → clip r (.polygon g) = none) ∧
    (∀ gs : List PolygonQ, (∀ g ∈ gs, clipPolygon r g = []) →
      clip r (.multiPolygon gs) = none) ∧
    (∀ p : Coord, clipPoint r p = none → clip r (.point p) = none) ∧
    (∀ l : LineQ, clipSegment r l = none → clip r (.line l) = none) := by
  refine ⟨?_, ?_, ?_, ?_⟩
  · intro g h
    simp [clip, h]
  · intro gs h
    have hf : (gs.map (clipPolygon r)).flatten = [] := by
      rw [List.flatten_eq_nil_iff]
      intro x hx
      obtain ⟨g, hg, rfl⟩ := List.mem_map.mp hx
      exact h g hg
    simp [clip, hf]
  · intro p h
    simp [clip, h]
  · intro l h
    simp [clip, h]

theorem clip_empty_result_none_witness :
    clip testRect (.polygon ⟨[⟨10, 10⟩, ⟨10, 11⟩, ⟨11, 11⟩, ⟨10, 10⟩], []⟩) = none ∧
    clip testRect (.multiPolygon
      [⟨[⟨10, 10⟩, ⟨10, 11⟩, ⟨11, 11⟩, ⟨10, 10⟩], []⟩]) = none ∧
    clip testRect (.point ⟨9, 9⟩) = none ∧
    clip testRect (.line ⟨⟨9, 9⟩, ⟨9, 10⟩⟩) = none := by
  have H := clip_empty_result_none testRect
  exact ⟨H.1 _ (by decide), H.2.1 _ (by decide), H.2.2.1 _ (by decide),
    H.2.2.2 _ (by decide)⟩

theorem clipSegment_result_in_bounds_witness :
    containsCoord testRect (LineQ.mk ⟨0, 1⟩ ⟨4, 1⟩).start ∧
    containsCoord testRect (LineQ.mk ⟨0, 1⟩ ⟨4, 1⟩).stop :=
  clipSegment_result_in_bounds testRect ⟨⟨-1, 1⟩, ⟨5, 1⟩⟩ ⟨⟨0, 1⟩, ⟨4, 1⟩⟩
    (by decide) (by decide) (by decide)

end Klippa
